import Mathlib

/-!
Verification of the dependency-graph resolution engine of the repository:
`skills/eaa-planning-patterns/scripts/dependency_resolver.py` (class
`DependencyResolver`: `load_graph`, `detect_cycles`, `topological_sort`,
`get_subgraph`) and `skills/eaa-planning-patterns/scripts/generate_task_tracker.py`
(class `TaskTracker`: `calculate_critical_path`).

The Python code is shallowly embedded: dictionaries become association lists
(with explicit Python-dict semantics: a repeated key keeps its first position
and its last value), JSON values become the inductive `JValue`, `while` loops
become fuel-based structural recursion with enough fuel (sufficiency is
proved where the claims need it), and raised exceptions become `Except`.
-/

namespace DepRes

/-- JSON-like values as produced by `json.loads` / `yaml.safe_load`. A JSON
object is modelled as the sequence of its key/value records. -/
inductive JValue where
  | jstr (s : String)
  | jnum (n : Int)
  | jbool (b : Bool)
  | jnull
  | jlist (xs : List JValue)
  | jobj (fields : List (String × JValue))

/-- One insertion step of Python dict construction: a repeated key keeps its
original position but takes the new value; a fresh key is appended. -/
def pyDictIns (d : List (String × α)) (k : String) (v : α) : List (String × α) :=
  if d.any (fun p => p.1 = k) then d.map (fun p => if p.1 = k then (k, v) else p)
  else d ++ [(k, v)]

/-- Python dict built from a sequence of key/value records (e.g. what
`json.loads` does with the textual members of an object). -/
def pyDict (l : List (String × α)) : List (String × α) :=
  l.foldl (fun d p => pyDictIns d p.1 p.2) []

/-- Python `dict.get` on an object's fields (fields already have unique keys
after `pyDict`, so first-match lookup is dict lookup). -/
def dictGet (fields : List (String × JValue)) (k : String) : Option JValue :=
  (pyDict fields).lookup k

/-- The graph representation built by `load_graph`: `self.graph`, a dict from
node id to its list of dependencies (all of which are node ids once the
dangling-dependency check has passed). -/
abbrev Graph := List (String × List String)

/-- Keys of an association list, in order. -/
def keysOf (g : List (String × α)) : List String := g.map Prod.fst

/-- `self.graph.get(node, [])`: the dependency list of a node, `[]` when the
node is absent. -/
def depsOf (g : Graph) (v : String) : List String :=
  match g.lookup v with
  | some d => d
  | none => []

/-- Lexicographic strict comparison of code-point lists, as Python compares
strings (`sorted()` uses it).  Executable by kernel reduction, unlike the
iterator-based `String` order instances. -/
def charListLt : List Char → List Char → Bool
  | [], [] => false
  | [], _ :: _ => true
  | _ :: _, [] => false
  | a :: as, b :: bs =>
      if a < b then true else if b < a then false else charListLt as bs

/-- Python's `<=` on strings (code-point lexicographic). -/
def strLeB (a b : String) : Bool := ! charListLt b.data a.data

/-- Python's `<` on strings (code-point lexicographic). -/
def strLtB (a b : String) : Bool := charListLt a.data b.data

/-- The ordering relation `sorted()` sorts by, as a proposition. -/
def pyLe (a b : String) : Prop := strLeB a b = true

instance : DecidableRel pyLe :=
  fun a b => inferInstanceAs (Decidable (strLeB a b = true))

/-- Errors raised by `load_graph` after the top-level format check:
`ValueError` for a non-list `deps` entry, and `ValueError` for the first node
whose dependencies do not all resolve (carrying that node and its missing
dependencies). -/
inductive LoadErr where
  | invalidDeps (node : String)
  | dangling (node : String) (missing : List JValue)

/-- Lines 97-106 of `dependency_resolver.py`:
`deps = node_data.get("deps", []) if isinstance(node_data, dict) else []`
followed by the `isinstance(deps, list)` check. -/
def extractDeps (node : String) (nd : JValue) : Except LoadErr (List JValue) :=
  let deps : JValue :=
    match nd with
    | .jobj fields =>
        match dictGet fields "deps" with
        | some v => v
        | none => .jlist []
    | _ => .jlist []
  match deps with
  | .jlist xs => .ok xs
  | _ => .error (.invalidDeps node)

/-- The graph-building loop of `load_graph` (lines 97-110): each node in dict
order contributes its extracted dependency list; the first node with a
non-list `deps` raises. -/
def rawEntries : List (String × JValue) → Except LoadErr (List (String × List JValue))
  | [] => .ok []
  | (k, nd) :: rest =>
      match extractDeps k nd with
      | .error e => .error e
      | .ok ds =>
          match rawEntries rest with
          | .error e => .error e
          | .ok tail => .ok ((k, ds) :: tail)

/-- Membership of a dependency value in the set of node ids (`set(deps) -
all_nodes` tests each dependency against the string keys). -/
def resolves (allNodes : List String) : JValue → Bool
  | .jstr s => allNodes.contains s
  | _ => false

/-- First-occurrence deduplication with an explicit boolean equality,
modelling the `set(...)` formed from the missing dependencies (only scalar
values are hashable in Python, so only scalars are compared). -/
def dedupBy (eq : α → α → Bool) : List α → List α → List α
  | _, [] => []
  | seen, x :: xs =>
      if seen.any (eq x) then dedupBy eq seen xs
      else x :: dedupBy eq (x :: seen) xs

/-- Scalar equality of JSON values (composite values are unhashable in Python
and never reach the missing-dependency set). -/
def jscalarEq : JValue → JValue → Bool
  | .jstr a, .jstr b => a = b
  | .jnum a, .jnum b => a = b
  | .jbool a, .jbool b => a = b
  | .jnull, .jnull => true
  | _, _ => false

/-- Lines 112-119 of `dependency_resolver.py`: scan the nodes in dict order
and raise at the first node with a non-empty `missing` set, reporting that
node and its missing dependencies. -/
def danglingCheck (allNodes : List String) :
    List (String × List JValue) → Option (String × List JValue)
  | [] => none
  | (v, ds) :: rest =>
      let missing := dedupBy jscalarEq [] (ds.filter (fun d => ! resolves allNodes d))
      if missing.isEmpty then danglingCheck allNodes rest
      else some (v, missing)

/-- The string names of a validated dependency list (after `danglingCheck`
passes, every dependency is the string of a node id, so this drops nothing). -/
def strNames (ds : List JValue) : List String :=
  ds.filterMap (fun d => match d with | .jstr s => some s | _ => none)

/-- `DependencyResolver.load_graph` from `self.nodes = data["nodes"]` onward:
the input is the parsed `"nodes"` mapping given as its key/value records
(Python dict semantics applied via `pyDict`). Produces `self.graph`. -/
def loadGraph (records : List (String × JValue)) : Except LoadErr Graph :=
  match rawEntries (pyDict records) with
  | .error e => .error e
  | .ok raw =>
      match danglingCheck (keysOf raw) raw with
      | some (n, miss) => .error (.dangling n miss)
      | none => .ok (raw.map (fun p => (p.1, strNames p.2)))

/-- The dependency edge relation of a graph: `depEdge g a b` holds when `b`
is listed among the dependencies of `a`. -/
def depEdge (g : Graph) (a b : String) : Prop := b ∈ depsOf g a

/-- A graph has a cycle when some node reaches itself through one or more
dependency edges. -/
def HasCycle (g : Graph) : Prop := ∃ a, Relation.TransGen (depEdge g) a a

/-- Structural well-formedness guaranteed by a successful `load_graph`:
distinct node ids and dependency lists closed under the node set. -/
def WFGraph (g : Graph) : Prop :=
  (keysOf g).Nodup ∧ ∀ p ∈ g, ∀ d ∈ p.2, d ∈ keysOf g

/-- The mutable state of `detect_cycles`: `visited`, the current DFS `path`,
and the accumulated `cycles`. The Python `rec_stack` set is added to and
removed from in lockstep with `path`, so its membership test is exactly
membership in `path` and it is not represented separately. -/
structure DfsSt where
  visited : List String
  path : List String
  cycles : List (List String)

/-- Lines 154-156 of `dependency_resolver.py`:
`cycle_start = path.index(dep); cycle = path[cycle_start:] + [dep]`. -/
def cycleSlice (path : List String) (dep : String) : List String :=
  path.drop (path.indexOf dep) ++ [dep]

/-- The recursive `dfs` of `detect_cycles` (lines 141-161), with fuel for the
recursion depth (the depth is bounded by the number of nodes, see
`dfsAux_no_fuel_out`). Marks the node visited, pushes it on the path, walks
its dependencies (recursing into unvisited ones, recording a cycle when a
dependency is on the current path), then pops the path. -/
def dfsAux (g : Graph) : Nat → String → DfsSt → DfsSt
  | 0, _, s => s
  | fuel + 1, node, s =>
      let s1 : DfsSt := ⟨s.visited ++ [node], s.path ++ [node], s.cycles⟩
      let s2 := (depsOf g node).foldl
        (fun st dep =>
          if dep ∈ st.visited then
            if dep ∈ st.path then
              { st with cycles := st.cycles ++ [cycleSlice st.path dep] }
            else st
          else dfsAux g fuel dep st)
        s1
      { s2 with path := s2.path.dropLast }

/-- The loop body of the DFS over one dependency (the `for dep in
self.graph.get(node, [])` body, lines 150-157), named for the proofs; it is
definitionally the lambda inside `dfsAux`. -/
def dfsFoldStep (g : Graph) (fuel : Nat) : DfsSt → String → DfsSt :=
  fun st dep =>
    if dep ∈ st.visited then
      if dep ∈ st.path then
        { st with cycles := st.cycles ++ [cycleSlice st.path dep] }
      else st
    else dfsAux g fuel dep st

/-- `DependencyResolver.detect_cycles` (lines 124-173): run the DFS from every
not-yet-visited node in dict order and return the accumulated cycles. -/
def detectCycles (g : Graph) : List (List String) :=
  ((keysOf g).foldl
    (fun s node => if node ∈ s.visited then s else dfsAux g (g.length + 1) node s)
    ⟨[], [], []⟩).cycles

/-- The loop body of `detect_cycles` over one starting node (lines 164-166),
named for the proofs; definitionally the lambda inside `detectCycles`. -/
def detectStep (g : Graph) : DfsSt → String → DfsSt :=
  fun s node => if node ∈ s.visited then s else dfsAux g (g.length + 1) node s

/-- Errors raised by `topological_sort`: the cycle error of lines 191-196
(carrying the detected cycles) and the incomplete-sort error of lines
224-229 (carrying the unprocessed nodes). -/
inductive SortErr where
  | cyclic (cycles : List (List String))
  | incomplete (unprocessed : List String)

/-- The dependents of `n` with multiplicity, in node order: `reverse_graph[n]`
as built on lines 95-110 (`reverse_graph[dep].append(node_id)` for each
occurrence of `dep` in each node's dependency list). -/
def dependentsOf (g : Graph) (n : String) : List String :=
  g.flatMap (fun p => List.replicate (p.2.count n) p.1)

/-- The inner loop of Kahn's algorithm (lines 217-222): decrement the
in-degree of each dependent of the processed node, in sorted order, and
append a dependent to the queue as soon as its in-degree reaches zero. -/
def relaxDeps (ds : List String) (st : (String → Int) × List String) :
    (String → Int) × List String :=
  ds.foldl
    (fun (p : (String → Int) × List String) dep =>
      let ind' := Function.update p.1 dep (p.1 dep - 1)
      if ind' dep = 0 then (ind', p.2 ++ [dep]) else (ind', p.2))
    st

/-- The `while queue:` loop of `topological_sort` (lines 208-222), fueled; the
fuel `g.length + 1` used below is sufficient (each iteration moves one node
into the result and at most `|nodes|` nodes ever enter the queue). Returns
the result together with the remaining queue. -/
def kahnLoop (g : Graph) :
    Nat → List String → List String → (String → Int) → List String × List String
  | 0, queue, result, _ => (result, queue)
  | _ + 1, [], result, _ => (result, [])
  | fuel + 1, n :: queue, result, ind =>
      let ds := List.insertionSort pyLe (dependentsOf g n)
      let p := relaxDeps ds (ind, queue)
      kahnLoop g fuel p.2 (result ++ [n]) p.1

/-- `DependencyResolver.topological_sort` (lines 175-231): fail with the full
cycle list if `detect_cycles` finds any cycle; otherwise run Kahn's
algorithm seeded with the sorted zero-in-degree nodes and apply the
defensive length check. -/
def topologicalSort (g : Graph) : Except SortErr (List String) :=
  let cycles := detectCycles g
  if cycles.isEmpty then
    let ind : String → Int := fun v => ((depsOf g v).length : Int)
    let seeds := List.insertionSort pyLe
      ((g.filter (fun p => p.2.isEmpty)).map Prod.fst)
    let r := kahnLoop g (g.length + 1) seeds [] ind
    if r.1.length ≠ g.length then
      .error (.incomplete ((keysOf g).filter (fun v => v ∉ r.1)))
    else .ok r.1
  else .error (.cyclic cycles)

/-- Errors raised by `get_subgraph`: the `KeyError` of lines 249-250 and a
propagated `topological_sort` error. -/
inductive SubErr where
  | keyError (node : String)
  | sortFailed (e : SortErr)

/-- The BFS closure loop of `get_subgraph` (lines 253-261), fueled: pop a
dependency; if unseen, mark it visited and enqueue its own dependencies. -/
def bfsClosure (g : Graph) : Nat → List String → List String → List String
  | 0, _, visited => visited
  | _ + 1, [], visited => visited
  | fuel + 1, d :: q, visited =>
      if d ∈ visited then bfsClosure g fuel q visited
      else bfsClosure g fuel (q ++ depsOf g d) (visited ++ [d])

/-- Fuel sufficient for `bfsClosure`: the initial queue plus every
dependency list can each be popped at most once. -/
def bfsFuel (g : Graph) (start : List String) : Nat :=
  start.length + (g.flatMap Prod.snd).length + 1

/-- `DependencyResolver.get_subgraph` (lines 233-272): `KeyError` when the
node is absent, otherwise the BFS-visited set filtered through the full
topological order. -/
def getSubgraph (g : Graph) (node : String) : Except SubErr (List String) :=
  if node ∈ keysOf g then
    let visited := bfsClosure g (bfsFuel g (depsOf g node)) (depsOf g node) []
    match topologicalSort g with
    | .ok allOrder => .ok (allOrder.filter (fun v => v ∈ visited))
    | .error e => .error (.sortFailed e)
  else .error (.keyError node)

/-- A task of `generate_task_tracker.py`, restricted to the fields read by
`validate_dependencies` and `calculate_critical_path` (`phase`, `description`,
`status`, `assignee`, `notes`, `created`, `updated` are opaque metadata never
read by the ordering logic). -/
structure Task where
  task_id : String
  dependencies : List String

/-- The task graph as a `Graph` (id paired with its dependency list, in task
order), used to state acyclicity and edge facts about a task list. -/
def tgraph (tasks : List Task) : Graph :=
  tasks.map (fun t => (t.task_id, t.dependencies))

/-- The key order of the dicts built by `calculate_critical_path`
(`{task.task_id: [] for task in self.tasks}` and the dicts derived from it):
first occurrence of each task id, in task order. -/
def cpKeys (tasks : List Task) : List String :=
  keysOf (pyDict (tasks.map (fun t => (t.task_id, ([] : List String)))))

/-- Lines 187-193 of `generate_task_tracker.py`: build the dependent
adjacency (`graph[dep_id].append(task.task_id)`) and the in-degree count
(`in_degree[task.task_id] += 1`) by walking every task's dependencies. -/
def cpBuild (tasks : List Task) : (String → List String) × (String → Int) :=
  tasks.foldl
    (fun st t =>
      t.dependencies.foldl
        (fun (p : (String → List String) × (String → Int)) dep =>
          (Function.update p.1 dep (p.1 dep ++ [t.task_id]),
           Function.update p.2 t.task_id (p.2 t.task_id + 1)))
        st)
    (fun _ => [], fun _ => 0)

/-- The mutable state of the critical-path walk: `longest_path`,
`predecessor`, `in_degree`, and the queue. -/
structure CpSt where
  lp : String → Nat
  pred : String → Option String
  ind : String → Int
  queue : List String

/-- The body of the `while queue:` loop (lines 204-214): for each dependent
of the current node, relax the longest path, record the predecessor,
decrement the in-degree, and enqueue on reaching zero. -/
def cpStep (adj : String → List String) (current : String) (s : CpSt) : CpSt :=
  (adj current).foldl
    (fun st nb =>
      let st1 :=
        if st.lp current + 1 > st.lp nb then
          { st with lp := Function.update st.lp nb (st.lp current + 1),
                    pred := Function.update st.pred nb (some current) }
        else st
      let ind' := Function.update st1.ind nb (st1.ind nb - 1)
      if ind' nb = 0 then { st1 with ind := ind', queue := st1.queue ++ [nb] }
      else { st1 with ind := ind' })
    s

/-- The loop body of lines 206-214 as a named function of the current node,
the state and one neighbor; `cpStep` folds it over the neighbor list (it is
definitionally the anonymous function inside `cpStep`). -/
def cpRelax (current : String) (st : CpSt) (nb : String) : CpSt :=
  let st1 :=
    if st.lp current + 1 > st.lp nb then
      { st with lp := Function.update st.lp nb (st.lp current + 1),
                pred := Function.update st.pred nb (some current) }
    else st
  let ind' := Function.update st1.ind nb (st1.ind nb - 1)
  if ind' nb = 0 then { st1 with ind := ind', queue := st1.queue ++ [nb] }
  else { st1 with ind := ind' }

/-- The `while queue:` loop of `calculate_critical_path`, fueled, also
returning the order in which nodes were dequeued (the second component is a
write-only record of the processing order; the algorithm never reads it). -/
def cpLoop (adj : String → List String) :
    Nat → CpSt → List String → CpSt × List String
  | 0, s, popped => (s, popped)
  | fuel + 1, s, popped =>
      match s.queue with
      | [] => (s, popped)
      | n :: rest =>
          cpLoop adj fuel (cpStep adj n { s with queue := rest }) (popped ++ [n])

/-- The final state of the critical-path walk for a task list.  The fuel
`tasks.length + 1` is sufficient: every dequeued node was enqueued, and each
node is enqueued at most once. -/
def cpRun (tasks : List Task) : CpSt × List String :=
  let ids := cpKeys tasks
  let b := cpBuild tasks
  cpLoop b.1 (tasks.length + 1)
    ⟨fun _ => 0, fun _ => none, b.2, ids.filter (fun v => b.2 v = 0)⟩ []

/-- Python `max(items, key=lambda x: x[1])[0]`: the first key attaining the
maximal value (later items replace the champion only when strictly greater). -/
def argmaxFirst : List (String × Nat) → Option String
  | [] => none
  | (k, v) :: rest =>
      some ((rest.foldl (fun best p => if p.2 > best.2 then p else best) (k, v)).1)

/-- The backward walk over `predecessor` links (lines 220-224), fueled; one
node is appended per step, and the walk is finite because the longest-path
value strictly decreases along predecessor links. -/
def cpWalk (pred : String → Option String) : Nat → Option String → List String → List String
  | _, none, acc => acc
  | 0, some _, acc => acc
  | fuel + 1, some cur, acc => cpWalk pred fuel (pred cur) (acc ++ [cur])

/-- `TaskTracker.calculate_critical_path` (lines 179-227).  `none` models the
`ValueError` Python's `max` raises on an empty task list. -/
def calculateCriticalPath (tasks : List Task) : Option (List String) :=
  let ids := cpKeys tasks
  let r := cpRun tasks
  match argmaxFirst (ids.map (fun v => (v, r.1.lp v))) with
  | none => none
  | some critEnd => some ((cpWalk r.1.pred (tasks.length + 1) (some critEnd) []).reverse)

/-- Decidability of the dependency-edge relation. -/
instance (g : Graph) : DecidableRel (depEdge g) :=
  fun _ b => inferInstanceAs (Decidable (b ∈ depsOf g _))

/-- A closed dependency cycle as a node list: at least one edge, consecutive
elements are dependency edges, and the list returns to its first element. -/
def IsCycleList (g : Graph) (c : List String) : Prop :=
  2 ≤ c.length ∧ c.head? = c.getLast? ∧ List.Chain' (depEdge g) c

/-- A node record shape that claim C10 is about: the node's value is not a
mapping, or is a mapping without a `"deps"` key. -/
def noDepsShape : JValue → Prop
  | .jobj fields => dictGet fields "deps" = none
  | _ => True

/-- A dependency chain of a task list: non-empty, over task ids, and each
consecutive pair is a dependency edge (the earlier node is a dependency of
the later one). -/
def TChain (tasks : List Task) (c : List String) : Prop :=
  c ≠ [] ∧ (∀ v ∈ c, v ∈ cpKeys tasks) ∧
    List.Chain' (fun u v => u ∈ depsOf (tgraph tasks) v) c

/-- Invariant of the `while queue:` loop of `calculate_critical_path`,
relating the state `s` to the list `P` of already dequeued nodes: dequeued
and queued nodes are distinct task ids; the in-degree of a node counts its
dependency occurrences whose dependency was not yet dequeued; a task id is
dequeued-or-queued exactly when all its dependencies were dequeued; a `none`
predecessor means longest path 0, a `some` predecessor is a dequeued
dependency one step shorter; edges out of dequeued nodes are relaxed; and
every longest-path value is at most the number of dequeued nodes. -/
def CInv (tasks : List Task) (P : List String) (s : CpSt) : Prop :=
  (P ++ s.queue).Nodup ∧
  (∀ v ∈ P ++ s.queue, v ∈ cpKeys tasks) ∧
  (∀ v, s.ind v = (((depsOf (tgraph tasks) v).filter (fun d => d ∉ P)).length : Int)) ∧
  (∀ v ∈ cpKeys tasks, (v ∈ P ++ s.queue ↔ ∀ d ∈ depsOf (tgraph tasks) v, d ∈ P)) ∧
  (∀ v, s.pred v = none → s.lp v = 0) ∧
  (∀ v u, s.pred v = some u →
    u ∈ depsOf (tgraph tasks) v ∧ u ∈ P ∧ v ∈ cpKeys tasks ∧ s.lp v = s.lp u + 1) ∧
  (∀ u ∈ P, ∀ v, u ∈ depsOf (tgraph tasks) v → s.lp u + 1 ≤ s.lp v) ∧
  (∀ v, s.lp v ≤ P.length)

/-- Invariant of the Kahn loop of `topological_sort`, relating the queue,
the emitted result and the in-degree table between iterations: emitted and
queued nodes are distinct node ids; the in-degree of a node counts its
dependencies not yet emitted; a node is queued exactly when it is unemitted
with zero in-degree; and every emitted node's dependencies were emitted
before it. -/
def KInv (g : Graph) (queue result : List String) (ind : String → Int) : Prop :=
  (result ++ queue).Nodup ∧
  (∀ v ∈ result, v ∈ keysOf g) ∧
  (∀ v ∈ queue, v ∈ keysOf g) ∧
  (∀ v ∈ keysOf g,
    ind v = (((depsOf g v).filter (fun d => d ∉ result)).length : Int)) ∧
  (∀ v ∈ keysOf g, v ∉ result → (v ∈ queue ↔ ind v = 0)) ∧
  (∀ i : Fin result.length, ∀ d ∈ depsOf g (result.get i), d ∈ result.take i)

/-- What holds of the result when the Kahn loop drains its queue: distinct
node ids, dependencies before dependents, and every unemitted node keeps an
unemitted dependency. -/
def KOut (g : Graph) (res : List String) : Prop :=
  res.Nodup ∧
  (∀ v ∈ res, v ∈ keysOf g) ∧
  (∀ i : Fin res.length, ∀ d ∈ depsOf g (res.get i), d ∈ res.take i) ∧
  (∀ v ∈ keysOf g, v ∉ res → ∃ d ∈ depsOf g v, d ∈ keysOf g ∧ d ∉ res)

/-- A list in which every element's dependencies occur strictly earlier: the
shape of a (reversed-finish-time or emission) topological order. -/
def OrderedByDeps (g : Graph) (fo : List String) : Prop :=
  ∀ i : Fin fo.length, ∀ d ∈ depsOf g (fo.get i), d ∈ fo.take i

/-- Concrete graph refuting claim C3: after `"b"` and `"x"` are emitted, both
`"a"` and `"y"` are eligible, but `"y"` entered the FIFO queue first. -/
def cg3 : Graph := [("a", ["x"]), ("b", []), ("x", []), ("y", [])]

/-- Concrete graph refuting claim C4: the elementary cycle
`a -> c -> d -> a` passes through `d`, already fully explored when `c` is
visited, and is never recorded. -/
def cg4 : Graph := [("a", ["b", "c"]), ("b", ["d"]), ("c", ["d"]), ("d", ["a"])]

/-- Concrete task list refuting claim C5's tie-break: `"b"` and `"x"` tie for
the maximal longest-path length; `"b"` comes first in the processing order
but `"x"` comes first in the task-dict order used by `max`. -/
def ctasks : List Task := [⟨"a", []⟩, ⟨"x", ["c"]⟩, ⟨"b", ["a"]⟩, ⟨"c", []⟩]

/-- Concrete input refuting claim C6: both `a -> x` and `b -> y` are dangling
references, but the raised error reports only node `"a"`'s. -/
def ce6 : List (String × JValue) :=
  [("a", .jobj [("deps", .jlist [.jstr "x"])]),
   ("b", .jobj [("deps", .jlist [.jstr "y"])])]

/-- Concrete input refuting claim C9: two records share the identifier
`"a"`; construction succeeds (the mapping keeps the last value) instead of
failing with a duplicate-node error. -/
def ce9 : List (String × JValue) := [("a", .jnull), ("a", .jobj [])]

/-- The executable code-point comparison agrees with the lexicographic order
on `List Char`. -/
theorem charListLt_iff :
    ∀ x y : List Char, charListLt x y = true ↔ List.Lex (· < ·) x y
  | [], [] => by
      simp only [charListLt, Bool.false_eq_true, false_iff]
      exact List.Lex.not_nil_right _ _
  | [], _ :: _ => by
      simp only [charListLt, true_iff]
      exact List.Lex.nil
  | _ :: _, [] => by
      simp only [charListLt, Bool.false_eq_true, false_iff]
      exact List.Lex.not_nil_right _ _
  | a :: as, b :: bs => by
      rcases lt_trichotomy a b with h | h | h
      · simp only [charListLt, h, if_pos, true_iff]
        exact List.Lex.rel h
      · subst h
        simp only [charListLt, lt_irrefl, if_neg, if_false, not_false_iff]
        rw [charListLt_iff as bs]
        exact List.Lex.cons_iff.symm
      · have hab : ¬ a < b := fun h' => lt_asymm h h'
        simp only [charListLt, hab, if_neg, if_false, h, if_pos,
          Bool.false_eq_true, false_iff]
        intro hlex
        cases hlex with
        | cons htail => exact lt_irrefl _ h
        | rel hr => exact hab hr

/-- The executable string comparison agrees with `String`'s `<`. -/
theorem strLtB_iff (a b : String) : strLtB a b = true ↔ a < b := by
  rw [String.lt_iff_toList_lt]
  exact charListLt_iff a.data b.data

/-- The executable string comparison agrees with `String`'s `≤`. -/
theorem strLeB_iff (a b : String) : strLeB a b = true ↔ a ≤ b := by
  rw [← not_lt, ← strLtB_iff b a]
  simp [strLeB, strLtB]

/-- `pyLe` is the order relation of `String`. -/
theorem pyLe_iff (a b : String) : pyLe a b ↔ a ≤ b := strLeB_iff a b

instance : IsTotal String pyLe :=
  ⟨fun a b => by simpa [pyLe_iff] using le_total a b⟩

instance : IsTrans String pyLe :=
  ⟨fun a b c hab hbc => by
    rw [pyLe_iff] at *
    exact le_trans hab hbc⟩

instance : IsAntisymm String pyLe :=
  ⟨fun a b hab hba => by
    rw [pyLe_iff] at *
    exact le_antisymm hab hba⟩

instance : IsRefl String pyLe :=
  ⟨fun a => by rw [pyLe_iff]⟩

/-- Claim C3 counterexample: on `cg3`, after the first two emitted nodes
`"b"` and `"x"`, the nodes `"a"` and `"y"` are simultaneously eligible (all
their dependencies are emitted, neither is emitted) and `"a" < "y"`, yet
`"y"` precedes `"a"` in the returned order, so the tie-break is not
lexicographic at every relaxation step. -/
theorem c3_counterexample :
    topologicalSort cg3 = .ok ["b", "x", "y", "a"] ∧
    depsOf cg3 "a" ⊆ ["b", "x"] ∧ depsOf cg3 "y" ⊆ ["b", "x"] ∧
    "a" ∉ (["b", "x"] : List String) ∧ "y" ∉ (["b", "x"] : List String) ∧
    "a" < "y" ∧
    List.indexOf "y" ["b", "x", "y", "a"] < List.indexOf "a" ["b", "x", "y", "a"] := by
  refine ⟨rfl, by decide, by decide, by decide, by decide,
    (strLtB_iff _ _).mp (by decide), by decide⟩

/-- Claim C4 counterexample: on `cg4`, `detect_cycles` returns only the
cycle `a -> b -> d -> a`, although `a -> c -> d -> a` is an elementary cycle
(distinct members `a`, `c`, `d`); no returned cycle has exactly those
members since `"c"` does not occur in the only returned cycle. -/
theorem c4_counterexample :
    detectCycles cg4 = [["a", "b", "d", "a"]] ∧
    IsCycleList cg4 ["a", "c", "d", "a"] ∧
    (["a", "c", "d"] : List String).Nodup ∧
    "c" ∉ (["a", "b", "d", "a"] : List String) := by
  refine ⟨rfl, ⟨by decide, rfl, ?_⟩, by decide, by decide⟩
  simp only [List.chain'_cons, List.chain'_singleton, and_true]
  refine ⟨?_, ?_, ?_⟩ <;> decide

/-- Claim C5 counterexample: on `ctasks`, the loop processes the nodes in
order `a, c, b, x`; `"b"` and `"x"` tie for the maximal longest-path value
`1`, and the first of them in that processing (topological) order is `"b"`,
yet the returned critical path ends at `"x"`. -/
theorem c5_counterexample :
    calculateCriticalPath ctasks = some ["c", "x"] ∧
    (cpRun ctasks).2 = ["a", "c", "b", "x"] ∧
    (cpRun ctasks).1.lp "b" = 1 ∧ (cpRun ctasks).1.lp "x" = 1 ∧
    (∀ v ∈ cpKeys ctasks, (cpRun ctasks).1.lp v ≤ 1) ∧
    ((cpRun ctasks).2.filter (fun v => (cpRun ctasks).1.lp v = 1)).head? = some "b" := by
  refine ⟨rfl, rfl, rfl, rfl, by decide, rfl⟩

/-- Claim C6 counterexample: on `ce6`, node `"a"` references missing `"x"`
and node `"b"` references missing `"y"`, but the raised error carries only
node `"a"` and its missing set; `"b"`'s dangling reference is not reported. -/
theorem c6_counterexample :
    loadGraph ce6 = .error (.dangling "a" [.jstr "x"]) ∧
    resolves ["a", "b"] (.jstr "y") = false := by
  exact ⟨rfl, rfl⟩

/-- Claim C9 counterexample: the two records of `ce9` share the identifier
`"a"`, yet construction succeeds (no duplicate-node error is raised; the
mapping keeps the last value for the repeated key). -/
theorem c9_counterexample :
    loadGraph ce9 = .ok [("a", [])] ∧ (keysOf ce9).Nodup = False := by
  refine ⟨rfl, by simp [ce9, keysOf]⟩

theorem any_key_iff {d : List (String × α)} {k : String} :
    d.any (fun p => p.1 = k) = true ↔ k ∈ keysOf d := by
  simp [keysOf, List.any_eq_true, List.mem_map]

theorem keysOf_pyDictIns (d : List (String × α)) (k : String) (v : α) :
    keysOf (pyDictIns d k v) =
      if d.any (fun p => p.1 = k) then keysOf d else keysOf d ++ [k] := by
  unfold pyDictIns
  split
  · unfold keysOf
    rw [List.map_map]
    congr 1
    funext p
    by_cases h : p.1 = k <;> simp [h]
  · simp [keysOf]

theorem pyDict_go_keys_nodup :
    ∀ (l d : List (String × α)), (keysOf d).Nodup →
      (keysOf (l.foldl (fun d p => pyDictIns d p.1 p.2) d)).Nodup
  | [], _, h => h
  | p :: l, d, h => by
      rw [List.foldl_cons]
      refine pyDict_go_keys_nodup l _ ?_
      rw [keysOf_pyDictIns]
      split
      · exact h
      · rename_i hany
        have hk : p.1 ∉ keysOf d := fun hm =>
          hany (any_key_iff.mpr hm)
        simp [List.nodup_append, h, hk]

theorem pyDict_keys_nodup (l : List (String × α)) : (keysOf (pyDict l)).Nodup :=
  pyDict_go_keys_nodup l [] List.nodup_nil

theorem rawEntries_keys :
    ∀ {l : List (String × JValue)} {r}, rawEntries l = .ok r → keysOf r = keysOf l
  | [], r, h => by
      simp only [rawEntries] at h
      cases h
      rfl
  | (k, nd) :: l, r, h => by
      simp only [rawEntries] at h
      cases hd : extractDeps k nd with
      | error e => simp [hd] at h
      | ok ds =>
        cases ht : rawEntries l with
        | error e => simp [hd, ht] at h
        | ok tl =>
          simp only [hd, ht] at h
          cases h
          have ih := rawEntries_keys ht
          simp only [keysOf, List.map_cons] at ih ⊢
          rw [ih]

theorem rawEntries_mem :
    ∀ {l : List (String × JValue)} {r} {k : String} {nd : JValue},
      rawEntries l = .ok r → (k, nd) ∈ l →
      ∃ ds, (k, ds) ∈ r ∧ extractDeps k nd = .ok ds
  | [], _, _, _, _, hm => absurd hm (List.not_mem_nil _)
  | (k', nd') :: l, r, k, nd, h, hm => by
      simp only [rawEntries] at h
      cases hd : extractDeps k' nd' with
      | error e => simp [hd] at h
      | ok ds =>
        cases ht : rawEntries l with
        | error e => simp [hd, ht] at h
        | ok tl =>
          simp only [hd, ht] at h
          cases h
          rcases List.mem_cons.mp hm with heq | hmem
          · cases heq
            exact ⟨ds, List.mem_cons_self _ _, hd⟩
          · rcases rawEntries_mem ht hmem with ⟨ds', hds', hex⟩
            exact ⟨ds', List.mem_cons_of_mem _ hds', hex⟩

theorem extractDeps_error {k : String} {nd : JValue} {e : LoadErr}
    (h : extractDeps k nd = .error e) : e = .invalidDeps k := by
  cases nd with
  | jobj fields =>
    unfold extractDeps at h
    cases hg : dictGet fields "deps" with
    | none => simp [hg] at h
    | some v =>
      cases v <;> simp [hg] at h <;> exact h.symm
  | jstr s => simp [extractDeps] at h
  | jnum n => simp [extractDeps] at h
  | jbool b => simp [extractDeps] at h
  | jnull => simp [extractDeps] at h
  | jlist xs => simp [extractDeps] at h

theorem rawEntries_error_shape :
    ∀ {l : List (String × JValue)} {e}, rawEntries l = .error e →
      ∃ nd, e = LoadErr.invalidDeps nd
  | [], _, h => by simp [rawEntries] at h
  | (k, nd) :: l, e, h => by
      simp only [rawEntries] at h
      cases hd : extractDeps k nd with
      | error e' =>
        simp only [hd] at h
        cases h
        exact ⟨k, extractDeps_error hd⟩
      | ok ds =>
        cases ht : rawEntries l with
        | error e' =>
          simp only [hd, ht] at h
          cases h
          exact rawEntries_error_shape ht
        | ok tl => simp [hd, ht] at h

theorem dedupBy_nil_of_eq_nil {eq : α → α → Bool} {l : List α}
    (h : dedupBy eq [] l = []) : l = [] := by
  cases l with
  | nil => rfl
  | cons x xs => simp [dedupBy] at h

theorem danglingCheck_none {A : List String} :
    ∀ {l}, danglingCheck A l = none →
      ∀ p ∈ l, ∀ d ∈ p.2, resolves A d = true
  | [], _, _, hm => absurd hm (List.not_mem_nil _)
  | (v, ds) :: l, h, p, hm => by
      simp only [danglingCheck] at h
      split at h
      · rename_i hempty
        rcases List.mem_cons.mp hm with heq | hmem
        · subst heq
          intro d hd
          by_contra hres
          have hfil : d ∈ ds.filter (fun d => ! resolves A d) :=
            List.mem_filter.mpr ⟨hd, by simp [hres]⟩
          have hnil : ds.filter (fun d => ! resolves A d) = [] :=
            dedupBy_nil_of_eq_nil (List.isEmpty_iff.mp hempty)
          rw [hnil] at hfil
          exact List.not_mem_nil _ hfil
        · exact danglingCheck_none h p hmem
      · exact absurd h (by simp)

theorem danglingCheck_some {A : List String} :
    ∀ {l n miss}, danglingCheck A l = some (n, miss) →
      ∃ l1 ds l2, l = l1 ++ (n, ds) :: l2 ∧
        miss = dedupBy jscalarEq [] (ds.filter (fun d => ! resolves A d)) ∧
        miss ≠ [] ∧
        ∀ p ∈ l1, p.2.filter (fun d => ! resolves A d) = []
  | [], n, miss, h => by simp [danglingCheck] at h
  | (v, ds) :: l, n, miss, h => by
      simp only [danglingCheck] at h
      split at h
      · rename_i hempty
        rcases danglingCheck_some h with ⟨l1, ds', l2, heq, hmiss, hne, hprev⟩
        refine ⟨(v, ds) :: l1, ds', l2, by rw [heq, List.cons_append], hmiss, hne, ?_⟩
        intro p hp
        rcases List.mem_cons.mp hp with rfl | hmem
        · exact dedupBy_nil_of_eq_nil (List.isEmpty_iff.mp hempty)
        · exact hprev p hmem
      · rename_i hempty
        cases h
        refine ⟨[], ds, l, rfl, rfl, ?_, by intro p hp; cases hp⟩
        intro hnil
        rw [hnil] at hempty
        simp at hempty

theorem loadGraph_ok_elim {records : List (String × JValue)} {g : Graph}
    (h : loadGraph records = .ok g) :
    ∃ raw, rawEntries (pyDict records) = .ok raw ∧
      danglingCheck (keysOf raw) raw = none ∧
      g = raw.map (fun p => (p.1, strNames p.2)) := by
  unfold loadGraph at h
  cases hr : rawEntries (pyDict records) with
  | error e => simp [hr] at h
  | ok raw =>
    simp only [hr] at h
    cases hd : danglingCheck (keysOf raw) raw with
    | some p =>
      cases p with
      | mk n miss => simp [hd] at h
    | none =>
      simp only [hd] at h
      cases h
      exact ⟨raw, rfl, hd, rfl⟩

theorem loadGraph_dangling_elim {records : List (String × JValue)}
    {n : String} {miss : List JValue}
    (h : loadGraph records = .error (.dangling n miss)) :
    ∃ raw, rawEntries (pyDict records) = .ok raw ∧
      danglingCheck (keysOf raw) raw = some (n, miss) := by
  unfold loadGraph at h
  cases hr : rawEntries (pyDict records) with
  | error e =>
    simp only [hr] at h
    cases h
    rcases rawEntries_error_shape hr with ⟨nd, hnd⟩
    exact absurd hnd (by simp)
  | ok raw =>
    simp only [hr] at h
    cases hd : danglingCheck (keysOf raw) raw with
    | some p =>
      cases p with
      | mk n' miss' =>
        simp only [hd, Except.error.injEq, LoadErr.dangling.injEq] at h
        rcases h with ⟨rfl, rfl⟩
        exact ⟨raw, rfl, hd⟩
    | none => simp [hd] at h

theorem lookup_of_mem_nodup :
    ∀ {l : List (String × α)} {k : String} {v : α},
      (keysOf l).Nodup → (k, v) ∈ l → l.lookup k = some v
  | [], _, _, _, hm => absurd hm (List.not_mem_nil _)
  | (k', v') :: l, k, v, hnd, hm => by
      rw [keysOf, List.map_cons] at hnd
      rcases List.nodup_cons.mp hnd with ⟨hk', hnd2⟩
      rcases List.mem_cons.mp hm with heq | hmem
      · cases heq
        simp [List.lookup]
      · have hk : (k == k') = false := by
          refine beq_eq_false_iff_ne.mpr ?_
          rintro rfl
          exact hk' (List.mem_map.mpr ⟨(k, v), hmem, rfl⟩)
        rw [List.lookup, hk]
        exact lookup_of_mem_nodup hnd2 hmem

theorem mem_of_lookup :
    ∀ {l : List (String × α)} {k : String} {v : α},
      l.lookup k = some v → (k, v) ∈ l
  | [], _, _, h => by simp [List.lookup] at h
  | (k', v') :: l, k, v, h => by
      rw [List.lookup] at h
      cases hk : k == k' with
      | true =>
        rw [hk] at h
        cases h
        have : k = k' := by simpa using hk
        subst this
        exact List.mem_cons_self _ _
      | false =>
        rw [hk] at h
        exact List.mem_cons_of_mem _ (mem_of_lookup h)

theorem lookup_isSome_of_mem_keys {l : List (String × α)} {k : String}
    (h : k ∈ keysOf l) : ∃ v, l.lookup k = some v := by
  induction l with
  | nil => simp [keysOf] at h
  | cons p l ih =>
    rw [keysOf, List.map_cons] at h
    rcases List.mem_cons.mp h with rfl | hmem
    · exact ⟨p.2, by simp [List.lookup]⟩
    · cases hk : (k == p.1) with
      | true =>
        exact ⟨p.2, by simp [List.lookup, hk]⟩
      | false =>
        rcases ih hmem with ⟨v, hv⟩
        exact ⟨v, by simp [List.lookup, hk, hv]⟩

theorem mem_keysOf_iff {l : List (String × α)} {k : String} :
    k ∈ keysOf l ↔ ∃ v, (k, v) ∈ l := by
  constructor
  · intro h
    rcases lookup_isSome_of_mem_keys h with ⟨v, hv⟩
    exact ⟨v, mem_of_lookup hv⟩
  · rintro ⟨v, hv⟩
    exact List.mem_map.mpr ⟨(k, v), hv, rfl⟩

theorem depsOf_of_mem {g : Graph} {k : String} {ds : List String}
    (hnd : (keysOf g).Nodup) (h : (k, ds) ∈ g) : depsOf g k = ds := by
  unfold depsOf
  rw [lookup_of_mem_nodup hnd h]

theorem mem_of_depsOf {g : Graph} {k : String}
    (hk : k ∈ keysOf g) : (k, depsOf g k) ∈ g := by
  rcases lookup_isSome_of_mem_keys hk with ⟨v, hv⟩
  have : depsOf g k = v := by unfold depsOf; rw [hv]
  rw [this]
  exact mem_of_lookup hv

theorem strNames_mem {ds : List JValue} {d : String} :
    d ∈ strNames ds ↔ JValue.jstr d ∈ ds := by
  unfold strNames
  rw [List.mem_filterMap]
  constructor
  · rintro ⟨a, ha, hfa⟩
    cases a <;> simp at hfa
    subst hfa
    exact ha
  · intro h
    exact ⟨.jstr d, h, rfl⟩

theorem resolves_jstr_iff {A : List String} {s : String} :
    resolves A (.jstr s) = true ↔ s ∈ A := by
  simp [resolves, List.elem_iff]

theorem loadGraph_keys {records : List (String × JValue)} {g : Graph}
    (h : loadGraph records = .ok g) : keysOf g = keysOf (pyDict records) := by
  rcases loadGraph_ok_elim h with ⟨raw, hr, _, rfl⟩
  rw [← rawEntries_keys hr]
  simp [keysOf, List.map_map]

theorem loadGraph_keys_nodup {records : List (String × JValue)} {g : Graph}
    (h : loadGraph records = .ok g) : (keysOf g).Nodup := by
  rw [loadGraph_keys h]
  exact pyDict_keys_nodup _

theorem loadGraph_wf {records : List (String × JValue)} {g : Graph}
    (h : loadGraph records = .ok g) : WFGraph g := by
  refine ⟨loadGraph_keys_nodup h, ?_⟩
  rcases loadGraph_ok_elim h with ⟨raw, hr, hdc, hg⟩
  subst hg
  intro p hp d hd
  rcases List.mem_map.mp hp with ⟨q, hq, rfl⟩
  have hj : JValue.jstr d ∈ q.2 := strNames_mem.mp hd
  have hres := danglingCheck_none hdc q hq (JValue.jstr d) hj
  have hmem : d ∈ keysOf raw := resolves_jstr_iff.mp hres
  simpa [keysOf, List.map_map] using hmem

/-- Claim C9 (amended): construction never observes duplicate identifiers
(the mapping input collapses them, keeping the first position and the last
value), so every graph successfully constructed by `load_graph` satisfies
the invariant that no two nodes share an identifier. -/
theorem c9_amended :
    ∀ (records : List (String × JValue)) (g : Graph),
      loadGraph records = .ok g → (keysOf g).Nodup :=
  fun _ _ h => loadGraph_keys_nodup h

/-- Witness for the amended claim C9 at a concrete input. -/
theorem c9_amended_witness : (keysOf [("a", ([] : List String))]).Nodup :=
  c9_amended ce9 [("a", [])] rfl

theorem extractDeps_noDeps {id : String} {nd : JValue} (h : noDepsShape nd) :
    extractDeps id nd = .ok [] := by
  cases nd with
  | jobj fields =>
    have hg : dictGet fields "deps" = none := h
    simp [extractDeps, hg]
  | jstr s => rfl
  | jnum n => rfl
  | jbool b => rfl
  | jnull => rfl
  | jlist xs => rfl

/-- Claim C10: a node record whose value is not a mapping or lacks a
`"deps"` key never causes a deps-shape failure and contributes the empty
dependency list: its extracted deps are `[]`, single-record construction
succeeds with empty deps, and in any successful construction containing the
record, that node's dependency list is `[]`. -/
theorem c10_no_deps_default :
    ∀ (id : String) (nd : JValue), noDepsShape nd →
      extractDeps id nd = .ok [] ∧
      loadGraph [(id, nd)] = .ok [(id, [])] ∧
      ∀ records g, loadGraph records = .ok g → (id, nd) ∈ pyDict records →
        depsOf g id = [] := by
  intro id nd h
  have hex : extractDeps id nd = .ok [] := extractDeps_noDeps h
  refine ⟨hex, ?_, ?_⟩
  · have hpd : pyDict [(id, nd)] = [(id, nd)] := by
      simp [pyDict, pyDictIns]
    have hraw : rawEntries [(id, nd)] = .ok [(id, [])] := by
      simp [rawEntries, hex]
    unfold loadGraph
    rw [hpd, hraw]
    simp [danglingCheck, dedupBy, keysOf, strNames]
  · intro records g hg hm
    rcases loadGraph_ok_elim hg with ⟨raw, hr, _, hgeq⟩
    rcases rawEntries_mem hr hm with ⟨ds, hds, hex'⟩
    rw [hex] at hex'
    cases hex'
    have : (id, strNames []) ∈ g := by
      rw [hgeq]
      exact List.mem_map.mpr ⟨(id, []), hds, rfl⟩
    exact depsOf_of_mem (loadGraph_keys_nodup hg) this

/-- Witness for claim C10 at a concrete input. -/
theorem c10_no_deps_default_witness :
    extractDeps "n" .jnull = .ok [] ∧
    loadGraph [("n", .jnull)] = .ok [("n", [])] ∧
    ∀ records g, loadGraph records = .ok g → ("n", .jnull) ∈ pyDict records →
      depsOf g "n" = [] :=
  c10_no_deps_default "n" .jnull trivial

/-- Claim C6 (amended): when construction fails with a dangling-dependency
error, the error reports the first node (in node order) with unresolved
dependencies together with all of that node's missing dependencies; every
earlier node has none, and later nodes' dangling references are not
included. -/
theorem c6_amended :
    ∀ (records : List (String × JValue)) (n : String) (miss : List JValue),
      loadGraph records = .error (.dangling n miss) →
      ∃ raw l1 ds l2,
        rawEntries (pyDict records) = .ok raw ∧
        raw = l1 ++ (n, ds) :: l2 ∧
        miss = dedupBy jscalarEq [] (ds.filter (fun d => ! resolves (keysOf raw) d)) ∧
        miss ≠ [] ∧
        ∀ p ∈ l1, p.2.filter (fun d => ! resolves (keysOf raw) d) = [] := by
  intro records n miss h
  rcases loadGraph_dangling_elim h with ⟨raw, hr, hd⟩
  rcases danglingCheck_some hd with ⟨l1, ds, l2, heq, hmiss, hne, hprev⟩
  exact ⟨raw, l1, ds, l2, hr, heq, hmiss, hne, hprev⟩

theorem relaxDeps_spec :
    ∀ (ds : List String) (ind : String → Int) (q : List String),
      (∀ v, (relaxDeps ds (ind, q)).1 v = ind v - (ds.count v : Int)) ∧
      ∃ app, (relaxDeps ds (ind, q)).2 = q ++ app ∧ app.Nodup ∧
        (∀ v, v ∈ app ↔ 1 ≤ ind v ∧ ind v ≤ (ds.count v : Int))
  | [], ind, q => by
      refine ⟨fun v => by simp [relaxDeps], [], by simp [relaxDeps], List.nodup_nil, ?_⟩
      intro v
      simp only [List.not_mem_nil, List.count_nil, Nat.cast_zero, false_iff]
      omega
  | d :: ds, ind, q => by
      have hstep : relaxDeps (d :: ds) (ind, q) =
          relaxDeps ds
            (if Function.update ind d (ind d - 1) d = 0 then
              (Function.update ind d (ind d - 1), q ++ [d])
            else (Function.update ind d (ind d - 1), q)) := by
        simp only [relaxDeps, List.foldl_cons]
      by_cases h1 : ind d = 1
      · rw [hstep, if_pos (by simp [Function.update_same, h1])]
        rcases relaxDeps_spec ds (Function.update ind d (ind d - 1)) (q ++ [d]) with
          ⟨hind, app', happ', hnd', hmem'⟩
        refine ⟨?_, d :: app', ?_, ?_, ?_⟩
        · intro v
          rw [hind v]
          by_cases hv : v = d
          · subst hv
            simp [Function.update_same, List.count_cons, h1]
          · simp [Function.update_apply, hv, List.count_cons, hv]
        · rw [happ']
          simp
        · refine List.nodup_cons.mpr ⟨?_, hnd'⟩
          intro hd
          have := (hmem' d).mp hd
          simp [Function.update_same, h1] at this
        · intro v
          by_cases hv : v = d
          · subst hv
            simp only [List.mem_cons, true_or, true_iff]
            have : (List.count v (v :: ds) : Int) = (List.count v ds : Int) + 1 := by
              simp [List.count_cons]
            rw [h1, this]
            constructor
            · omega
            · omega
          · simp only [List.mem_cons, hv, false_or]
            rw [hmem' v]
            simp [Function.update_apply, hv, List.count_cons, hv]
      · rw [hstep, if_neg (by simp [Function.update_same]; omega)]
        rcases relaxDeps_spec ds (Function.update ind d (ind d - 1)) q with
          ⟨hind, app', happ', hnd', hmem'⟩
        refine ⟨?_, app', happ', hnd', ?_⟩
        · intro v
          rw [hind v]
          by_cases hv : v = d
          · subst hv
            simp [Function.update_same, List.count_cons]
            omega
          · simp [Function.update_apply, hv, List.count_cons, hv]
        · intro v
          rw [hmem' v]
          by_cases hv : v = d
          · subst hv
            simp only [Function.update_same, List.count_cons, beq_self_eq_true,
              if_pos, Nat.cast_add, Nat.cast_one]
            constructor
            · rintro ⟨ha, hb⟩
              constructor <;> omega
            · rintro ⟨ha, hb⟩
              constructor <;> omega
          · simp [Function.update_apply, hv, List.count_cons, hv]

theorem mem_dependentsOf_keys {g : Graph} {n v : String}
    (h : v ∈ dependentsOf g n) : v ∈ keysOf g := by
  unfold dependentsOf at h
  rcases List.mem_flatMap.mp h with ⟨p, hp, hv⟩
  rcases List.eq_of_mem_replicate hv with rfl
  exact List.mem_map.mpr ⟨p, hp, rfl⟩

theorem count_dependentsOf :
    ∀ {g : Graph}, (keysOf g).Nodup → ∀ (n v : String),
      ((dependentsOf g n).count v : Int) =
        if v ∈ keysOf g then ((depsOf g v).count n : Int) else 0
  | [], _, n, v => by simp [dependentsOf, keysOf]
  | (k, ds) :: g, hnd, n, v => by
      rw [keysOf, List.map_cons] at hnd
      rcases List.nodup_cons.mp hnd with ⟨hk, hnd2⟩
      have ih := @count_dependentsOf g hnd2 n
      have hdep : dependentsOf ((k, ds) :: g) n =
          List.replicate (ds.count n) k ++ dependentsOf g n := by
        simp [dependentsOf]
      by_cases hv : v = k
      · subst hv
        have hvg : v ∉ keysOf g := hk
        have hcount : (dependentsOf g n).count v = 0 := by
          by_contra hc
          exact hvg (mem_dependentsOf_keys (List.count_pos_iff.mp (Nat.pos_of_ne_zero hc)))
        have hkeys : v ∈ keysOf ((v, ds) :: g) := by simp [keysOf]
        have hdeps : depsOf ((v, ds) :: g) v = ds := by
          simp [depsOf, List.lookup]
        rw [hdep, List.count_append, hcount, if_pos hkeys, hdeps,
          List.count_replicate_self]
        simp
      · have hkeys : (v ∈ keysOf ((k, ds) :: g)) ↔ v ∈ keysOf g := by
          simp [keysOf, hv]
        have hdeps : depsOf ((k, ds) :: g) v = depsOf g v := by
          simp only [depsOf, List.lookup]
          rw [show (v == k) = false from beq_eq_false_iff_ne.mpr hv]
        have hbe : (k == v) = false := beq_eq_false_iff_ne.mpr (Ne.symm hv)
        rw [hdep, List.count_append, List.count_replicate, hdeps]
        simp only [hbe, Bool.false_eq_true, if_false, Nat.cast_add, Nat.cast_zero,
          zero_add, ih v]
        by_cases hvg : v ∈ keysOf g
        · rw [if_pos hvg, if_pos (hkeys.mpr hvg)]
        · rw [if_neg hvg, if_neg (fun hc => hvg (hkeys.mp hc))]

theorem deps_subset_of_order {g : Graph} {r : List String}
    (horder : ∀ i : Fin r.length, ∀ d ∈ depsOf g (r.get i), d ∈ r.take i)
    {v : String} (hv : v ∈ r) : ∀ d ∈ depsOf g v, d ∈ r := by
  rcases List.mem_iff_get.mp hv with ⟨i, rfl⟩
  intro d hd
  exact List.take_subset _ _ (horder i d hd)

theorem filter_not_mem_eq_nil {l r : List String} (h : ∀ d ∈ l, d ∈ r) :
    l.filter (fun d => d ∉ r) = [] := by
  rw [List.filter_eq_nil_iff]
  intro d hd
  simp [h d hd]

theorem length_filter_snoc :
    ∀ (l r : List String) (n : String), n ∉ r →
      ((l.filter (fun d => d ∉ r ++ [n])).length : Int)
        = ((l.filter (fun d => d ∉ r)).length : Int) - (l.count n : Int)
  | [], _, _, _ => by simp
  | a :: l, r, n, hn => by
      have ih := length_filter_snoc l r n hn
      by_cases ha : a = n
      · subst ha
        simp only [List.filter_cons, List.count_cons]
        rw [if_neg (by simp), if_pos (by simp [hn]), if_pos (by simp)]
        simp only [List.length_cons]
        push_cast
        omega
      · by_cases har : a ∈ r
        · simp only [List.filter_cons, List.count_cons]
          rw [if_neg (by simp [har]), if_neg (by simp [har]),
            if_neg (by simp [ha])]
          omega
        · simp only [List.filter_cons, List.count_cons]
          rw [if_pos (by simp [har, ha]), if_pos (by simp [har]),
            if_neg (by simp [ha])]
          simp only [List.length_cons]
          push_cast
          omega

theorem count_filter_not_mem {l r : List String} {n : String} (hn : n ∉ r) :
    (l.filter (fun d => d ∉ r)).count n = l.count n := by
  induction l with
  | nil => simp
  | cons a l ih =>
    by_cases ha : a ∈ r
    · have hna : (a == n) = false := by
        refine beq_eq_false_iff_ne.mpr ?_
        rintro rfl
        exact hn ha
      simp only [List.filter_cons, List.count_cons, hna]
      rw [if_neg (by simp [ha])]
      simpa using ih
    · simp only [List.filter_cons, List.count_cons]
      rw [if_pos (by simp [ha]), List.count_cons, ih]

/-- One iteration of the Kahn loop preserves the invariant. -/
theorem kahn_step {g : Graph} (hW : WFGraph g) {n : String} {qt r : List String}
    {ind : String → Int} (hInv : KInv g (n :: qt) r ind) :
    KInv g (relaxDeps (List.insertionSort pyLe (dependentsOf g n)) (ind, qt)).2
      (r ++ [n])
      (relaxDeps (List.insertionSort pyLe (dependentsOf g n)) (ind, qt)).1 := by
  obtain ⟨hnodup, hrk, hqk, hind, hqiff, horder⟩ := hInv
  set ds := List.insertionSort pyLe (dependentsOf g n) with hds
  obtain ⟨hind', app, happ, hndapp, hmemapp⟩ := relaxDeps_spec ds ind qt
  have hnK : n ∈ keysOf g := hqk n (List.mem_cons_self _ _)
  have hsplit : r ++ n :: qt = (r ++ [n]) ++ qt := by simp
  have hnodup' : ((r ++ [n]) ++ qt).Nodup := by rw [← hsplit]; exact hnodup
  have hnr : n ∉ r := by
    have := (List.nodup_append.mp hnodup).2.2
    intro hc
    exact this hc (List.mem_cons_self _ _)
  have hindn : ind n = 0 := (hqiff n hnK hnr).mp (List.mem_cons_self _ _)
  have hdepsn : ∀ d ∈ depsOf g n, d ∈ r := by
    intro d hd
    by_contra hc
    have h0 := hind n hnK
    rw [hindn] at h0
    have hlen : ((depsOf g n).filter (fun d => d ∉ r)).length = 0 := by
      exact_mod_cast h0.symm
    have hnil : (depsOf g n).filter (fun d => d ∉ r) = [] :=
      List.length_eq_zero.mp hlen
    have hm : d ∈ (depsOf g n).filter (fun d => d ∉ r) :=
      List.mem_filter.mpr ⟨hd, by simp [hc]⟩
    rw [hnil] at hm
    exact List.not_mem_nil _ hm
  -- counts through sorting
  have hcount : ∀ v, (ds.count v : Int) =
      if v ∈ keysOf g then ((depsOf g v).count n : Int) else 0 := by
    intro v
    rw [hds, (List.perm_insertionSort pyLe (dependentsOf g n)).count_eq]
    exact count_dependentsOf hW.1 n v
  -- a node already emitted has zero in-degree
  have hemit0 : ∀ v ∈ r, v ∈ keysOf g → ind v = 0 := by
    intro v hv hvk
    rw [hind v hvk, filter_not_mem_eq_nil (deps_subset_of_order horder hv)]
    simp
  -- membership facts about app
  have happ_facts : ∀ v ∈ app, v ∈ keysOf g ∧ v ∉ r ∧ v ≠ n ∧ v ∉ qt := by
    intro v hv
    obtain ⟨h1, h2⟩ := (hmemapp v).mp hv
    have hvk : v ∈ keysOf g := by
      by_contra hvk
      rw [hcount v, if_neg hvk] at h2
      omega
    have hvr : v ∉ r := by
      intro hc
      have := hemit0 v hc hvk
      omega
    have hvn : v ≠ n := by
      rintro rfl
      omega
    have hvq : v ∉ qt := by
      intro hc
      have := (hqiff v hvk hvr).mp (List.mem_cons_of_mem _ hc)
      omega
    exact ⟨hvk, hvr, hvn, hvq⟩
  -- count of n inside the unresolved filter equals count of n overall
  have hcnt_eq : ∀ v, (depsOf g v).count n =
      ((depsOf g v).filter (fun d => d ∉ r)).count n :=
    fun v => (count_filter_not_mem hnr).symm
  have hcnt_le : ∀ v ∈ keysOf g, ((depsOf g v).count n : Int) ≤ ind v := by
    intro v hvk
    rw [hind v hvk, hcnt_eq v]
    exact_mod_cast List.count_le_length _ _
  refine ⟨?_, ?_, ?_, ?_, ?_, ?_⟩
  · -- Nodup
    rw [happ, ← List.append_assoc]
    rw [List.nodup_append]
    refine ⟨hnodup', hndapp, ?_⟩
    intro a ha hc
    obtain ⟨hak, har, han, haq⟩ := happ_facts a hc
    rw [← hsplit] at ha
    rcases List.mem_append.mp ha with h | h
    · exact har h
    · rcases List.mem_cons.mp h with rfl | h
      · exact han rfl
      · exact haq h
  · -- result ⊆ keys
    intro v hv
    rcases List.mem_append.mp hv with h | h
    · exact hrk v h
    · rcases List.mem_cons.mp h with rfl | h
      · exact hnK
      · exact absurd h (List.not_mem_nil _)
  · -- queue ⊆ keys
    intro v hv
    rw [happ] at hv
    rcases List.mem_append.mp hv with h | h
    · exact hqk v (List.mem_cons_of_mem _ h)
    · exact (happ_facts v h).1
  · -- in-degree characterization
    intro v hvk
    rw [hind' v, hind v hvk, hcount v, if_pos hvk]
    exact (length_filter_snoc (depsOf g v) r n hnr).symm
  · -- queue iff zero in-degree
    intro v hvk hvr'
    have hvr : v ∉ r := fun hc => hvr' (List.mem_append.mpr (Or.inl hc))
    have hvn : v ≠ n := by
      rintro rfl
      exact hvr' (List.mem_append.mpr (Or.inr (List.mem_cons_self _ _)))
    rw [happ, hind' v, hcount v, if_pos hvk]
    by_cases hq : v ∈ qt
    · have h0 : ind v = 0 := (hqiff v hvk hvr).mp (List.mem_cons_of_mem _ hq)
      have hc0 : ((depsOf g v).count n : Int) = 0 := by
        have hle := hcnt_le v hvk
        have hge : (0 : Int) ≤ ((depsOf g v).count n : Int) := Int.natCast_nonneg _
        omega
      constructor
      · intro _
        omega
      · intro _
        exact List.mem_append.mpr (Or.inl hq)
    · have hne0 : ind v ≠ 0 := fun hc =>
        hq (by
          have := (hqiff v hvk hvr).mpr hc
          rcases List.mem_cons.mp this with rfl | h
          · exact absurd rfl hvn
          · exact h)
      have hge1 : 1 ≤ ind v := by
        have : (0 : Int) ≤ ind v := by
          rw [hind v hvk]
          exact Int.natCast_nonneg _
        omega
      constructor
      · intro hm
        rcases List.mem_append.mp hm with h | h
        · exact absurd h hq
        · obtain ⟨h1, h2⟩ := (hmemapp v).mp h
          rw [hcount v, if_pos hvk] at h2
          have := hcnt_le v hvk
          omega
      · intro h0
        refine List.mem_append.mpr (Or.inr ((hmemapp v).mpr ⟨hge1, ?_⟩))
        rw [hcount v, if_pos hvk]
        have := hcnt_le v hvk
        omega
  · -- order: dependencies emitted before
    intro i d hd
    by_cases hi : (i : Nat) < r.length
    · have hget : (r ++ [n]).get i = r.get ⟨i, hi⟩ := by
        rw [List.get_eq_getElem, List.get_eq_getElem, List.getElem_append_left]
      rw [hget] at hd
      have htake : (r ++ [n]).take i = r.take i := by
        rw [List.take_append_of_le_length (le_of_lt hi)]
      rw [htake]
      exact horder ⟨i, hi⟩ d hd
    · have hieq : (i : Nat) = r.length := by
        have := i.isLt
        simp only [List.length_append, List.length_singleton] at this
        omega
      have hget : (r ++ [n]).get i = n := by
        rw [List.get_eq_getElem]
        have h2 : (i : Nat) - r.length = 0 := by omega
        rw [List.getElem_append_right (by omega)]
        simp [h2]
      rw [hget] at hd
      have htake : (r ++ [n]).take i = r := by
        rw [hieq, List.take_left]
      rw [htake]
      exact hdepsn d hd

theorem nodup_subset_length {l l' : List String} (h : l.Nodup) (hs : l ⊆ l') :
    l.length ≤ l'.length := by
  calc l.length = l.toFinset.card := (List.toFinset_card_of_nodup h).symm
    _ ≤ l'.toFinset.card := Finset.card_le_card (fun a ha =>
        List.mem_toFinset.mpr (hs (List.mem_toFinset.mp ha)))
    _ ≤ l'.length := List.toFinset_card_le l'

/-- An invariant state with an empty queue satisfies the output predicate. -/
theorem kout_of_inv_empty {g : Graph} (hW : WFGraph g) {res : List String}
    {ind : String → Int} (hInv : KInv g [] res ind) : KOut g res := by
  obtain ⟨hnodup, hrk, _, hind, hqiff, horder⟩ := hInv
  refine ⟨by simpa using hnodup, hrk, horder, ?_⟩
  intro v hvk hvr
  have hne0 : ind v ≠ 0 := fun hc => by
    have := (hqiff v hvk hvr).mpr hc
    exact List.not_mem_nil _ this
  have hlen : ((depsOf g v).filter (fun d => d ∉ res)).length ≠ 0 := by
    intro hc
    apply hne0
    rw [hind v hvk, hc]
    rfl
  have hne : (depsOf g v).filter (fun d => d ∉ res) ≠ [] := by
    intro hc
    rw [hc] at hlen
    exact hlen rfl
  rcases List.exists_mem_of_ne_nil _ hne with ⟨d, hd⟩
  rcases List.mem_filter.mp hd with ⟨hdm, hdr⟩
  refine ⟨d, hdm, ?_, by simpa using hdr⟩
  exact hW.2 (v, depsOf g v) (mem_of_depsOf hvk) d hdm

/-- The queue of an invariant state for a non-emptied run is bounded: a
non-empty queue means the result misses some node. -/
theorem result_lt_of_queue_ne {g : Graph} {n : String} {qt res : List String}
    {ind : String → Int} (hInv : KInv g (n :: qt) res ind) :
    res.length < (keysOf g).length := by
  obtain ⟨hnodup, hrk, hqk, _, _, _⟩ := hInv
  have hsub : (res ++ n :: qt) ⊆ keysOf g := by
    intro a ha
    rcases List.mem_append.mp ha with h | h
    · exact hrk a h
    · exact hqk a h
  have := nodup_subset_length hnodup hsub
  simp only [List.length_append, List.length_cons] at this
  omega

/-- The Kahn loop with sufficient fuel drains its queue and yields a result
satisfying the output predicate. -/
theorem kahnLoop_spec {g : Graph} (hW : WFGraph g) :
    ∀ (fuel : Nat) (queue result : List String) (ind : String → Int),
      KInv g queue result ind →
      (keysOf g).length - result.length < fuel →
      (kahnLoop g fuel queue result ind).2 = [] ∧
      KOut g (kahnLoop g fuel queue result ind).1
  | 0, queue, result, ind, _, hfuel => absurd hfuel (Nat.not_lt_zero _)
  | fuel + 1, [], result, ind, hInv, _ =>
      ⟨rfl, kout_of_inv_empty hW hInv⟩
  | fuel + 1, n :: qt, result, ind, hInv, hfuel => by
      have hstep := kahn_step hW hInv
      have hlt := result_lt_of_queue_ne hInv
      have hrec := kahnLoop_spec hW fuel
        (relaxDeps (List.insertionSort pyLe (dependentsOf g n)) (ind, qt)).2
        (result ++ [n])
        (relaxDeps (List.insertionSort pyLe (dependentsOf g n)) (ind, qt)).1
        hstep
        (by simp only [List.length_append, List.length_singleton]; omega)
      exact hrec

/-- The Kahn loop only ever appends to `result ++ queue`. -/
theorem kahnLoop_extends {g : Graph} :
    ∀ (fuel : Nat) (queue result : List String) (ind : String → Int),
      ∃ ext, (kahnLoop g fuel queue result ind).1 ++
          (kahnLoop g fuel queue result ind).2 = (result ++ queue) ++ ext
  | 0, queue, result, ind => ⟨[], by simp [kahnLoop]⟩
  | fuel + 1, [], result, ind => ⟨[], by simp [kahnLoop]⟩
  | fuel + 1, n :: qt, result, ind => by
      set p := relaxDeps (List.insertionSort pyLe (dependentsOf g n)) (ind, qt) with hp
      obtain ⟨_, app, happ, _, _⟩ :=
        relaxDeps_spec (List.insertionSort pyLe (dependentsOf g n)) ind qt
      rcases kahnLoop_extends fuel p.2 (result ++ [n]) p.1 with ⟨ext, hext⟩
      refine ⟨app ++ ext, ?_⟩
      have hq : kahnLoop g (fuel + 1) (n :: qt) result ind =
          kahnLoop g fuel p.2 (result ++ [n]) p.1 := rfl
      rw [hq, hext, ← hp] at *
      rw [happ]
      simp

/-- The initial state of Kahn's algorithm satisfies the invariant. -/
theorem initial_inv {g : Graph} (hW : WFGraph g) :
    KInv g
      (List.insertionSort pyLe ((g.filter (fun p => p.2.isEmpty)).map Prod.fst))
      [] (fun v => ((depsOf g v).length : Int)) := by
  have hperm :=
    List.perm_insertionSort pyLe ((g.filter (fun p => p.2.isEmpty)).map Prod.fst)
  have hseeds_nodup : ((g.filter (fun p => p.2.isEmpty)).map Prod.fst).Nodup := by
    have hsub : List.Sublist ((g.filter (fun p => p.2.isEmpty)).map Prod.fst) (keysOf g) :=
      (List.filter_sublist g).map Prod.fst
    exact List.Nodup.sublist hsub hW.1
  refine ⟨?_, ?_, ?_, ?_, ?_, ?_⟩
  · simpa using hperm.nodup_iff.mpr hseeds_nodup
  · intro v hv
    exact absurd hv (List.not_mem_nil _)
  · intro v hv
    rcases List.mem_map.mp (hperm.mem_iff.mp hv) with ⟨p, hp, rfl⟩
    exact List.mem_map.mpr ⟨p, (List.mem_filter.mp hp).1, rfl⟩
  · intro v _
    have hfil : (depsOf g v).filter (fun d => d ∉ ([] : List String)) = depsOf g v := by
      simp
    rw [hfil]
  · intro v hvk _
    rw [hperm.mem_iff]
    constructor
    · intro hv
      rcases List.mem_map.mp hv with ⟨p, hpf, rfl⟩
      rcases List.mem_filter.mp hpf with ⟨hpg, hpe⟩
      have hdeq : depsOf g p.1 = p.2 := depsOf_of_mem hW.1 hpg
      show ((depsOf g p.1).length : Int) = 0
      rw [hdeq, List.isEmpty_iff.mp hpe]
      rfl
    · intro h0
      have h0' : ((depsOf g v).length : Int) = 0 := h0
      have hlen : (depsOf g v).length = 0 := by exact_mod_cast h0'
      have hdeps : depsOf g v = [] := List.length_eq_zero.mp hlen
      have hmem : (v, depsOf g v) ∈ g := mem_of_depsOf hvk
      rw [hdeps] at hmem
      exact List.mem_map.mpr ⟨(v, []), List.mem_filter.mpr ⟨hmem, by simp⟩, rfl⟩
  · intro i
    exact absurd i.isLt (by simp)

/-- A non-empty set of nodes each of which keeps a dependency inside the set
yields a cycle (an infinite walk in a finite set must repeat). -/
theorem cycle_of_closed {g : Graph} {S : List String} (hne : S ≠ [])
    (hstep : ∀ v ∈ S, ∃ d ∈ depsOf g v, d ∈ S) : HasCycle g := by
  classical
  obtain ⟨v0, hv0⟩ := List.exists_mem_of_ne_nil S hne
  let f : {v // v ∈ S} → {v // v ∈ S} := fun x =>
    ⟨(hstep x.1 x.2).choose, (hstep x.1 x.2).choose_spec.2⟩
  have hedge : ∀ x : {v // v ∈ S}, depEdge g x.1 (f x).1 := fun x =>
    (hstep x.1 x.2).choose_spec.1
  let u : Nat → {v // v ∈ S} := fun m => f^[m] ⟨v0, hv0⟩
  have hu : ∀ m, u (m + 1) = f (u m) := fun m => Function.iterate_succ_apply' f m _
  have hchain : ∀ i j, i < j → Relation.TransGen (depEdge g) (u i).1 (u j).1 := by
    intro i j hij
    induction j with
    | zero => omega
    | succ j ih =>
      rcases Nat.lt_succ_iff_lt_or_eq.mp hij with h | h
      · refine (ih h).tail ?_
        rw [hu j]
        exact hedge (u j)
      · subst h
        refine Relation.TransGen.single ?_
        rw [hu i]
        exact hedge (u i)
  have hmap : ∀ m ∈ Finset.range (S.length + 1), (u m).1 ∈ S.toFinset :=
    fun m _ => List.mem_toFinset.mpr (u m).2
  have hcard : S.toFinset.card < (Finset.range (S.length + 1)).card := by
    rw [Finset.card_range]
    exact Nat.lt_succ_of_le (List.toFinset_card_le S)
  obtain ⟨i, _, j, _, hij, heq⟩ :=
    Finset.exists_ne_map_eq_of_card_lt_of_maps_to hcard hmap
  rcases Nat.lt_or_ge i j with h | h
  · refine ⟨(u i).1, ?_⟩
    have := hchain i j h
    rwa [← heq] at this
  · have hji : j < i := lt_of_le_of_ne h (fun e => hij e.symm)
    refine ⟨(u j).1, ?_⟩
    have := hchain j i hji
    rwa [heq] at this

/-- With an acyclic graph, the Kahn output contains every node. -/
theorem kout_complete {g : Graph} (_hW : WFGraph g) (hA : ¬ HasCycle g)
    {res : List String} (h : KOut g res) : ∀ v ∈ keysOf g, v ∈ res := by
  by_contra hc
  push_neg at hc
  rcases hc with ⟨v, hvk, hvr⟩
  have hne : (keysOf g).filter (fun u => u ∉ res) ≠ [] := by
    intro h0
    have hv : v ∈ (keysOf g).filter (fun u => u ∉ res) :=
      List.mem_filter.mpr ⟨hvk, by simp [hvr]⟩
    rw [h0] at hv
    exact List.not_mem_nil _ hv
  apply hA
  refine cycle_of_closed hne ?_
  intro u hu
  rcases List.mem_filter.mp hu with ⟨huk, hur⟩
  rcases h.2.2.2 u huk (by simpa using hur) with ⟨d, hdm, hdk, hdr⟩
  exact ⟨d, hdm, List.mem_filter.mpr ⟨hdk, by simp [hdr]⟩⟩

/-- On a well-formed acyclic graph whose cycle scan comes back empty,
`topological_sort` succeeds and its output is a complete topological order. -/
theorem sort_ok_of_acyclic {g : Graph} (hW : WFGraph g)
    (hcy : detectCycles g = []) (hA : ¬ HasCycle g) :
    ∃ l, topologicalSort g = .ok l ∧ KOut g l ∧
      (∀ v, v ∈ l ↔ v ∈ keysOf g) ∧ l.length = (keysOf g).length := by
  obtain ⟨hq, hout⟩ := kahnLoop_spec hW (g.length + 1)
    (List.insertionSort pyLe ((g.filter (fun p => p.2.isEmpty)).map Prod.fst))
    [] (fun v => ((depsOf g v).length : Int)) (initial_inv hW)
    (by simp [keysOf])
  set res := (kahnLoop g (g.length + 1)
    (List.insertionSort pyLe ((g.filter (fun p => p.2.isEmpty)).map Prod.fst))
    [] (fun v => ((depsOf g v).length : Int))).1 with hres
  have hmem : ∀ v, v ∈ res ↔ v ∈ keysOf g := fun v =>
    ⟨fun h => hout.2.1 v h, fun h => kout_complete hW hA hout v h⟩
  have hlen : res.length = (keysOf g).length := by
    have h1 : res.length ≤ (keysOf g).length :=
      nodup_subset_length hout.1 (fun a ha => (hmem a).mp ha)
    have h2 : (keysOf g).length ≤ res.length :=
      nodup_subset_length hW.1 (fun a ha => (hmem a).mpr ha)
    omega
  have hlg : res.length = g.length := by
    rw [hlen]
    simp [keysOf]
  refine ⟨res, ?_, hout, hmem, hlen⟩
  unfold topologicalSort
  rw [hcy]
  simp only [List.isEmpty_nil, if_true]
  rw [← hres, if_neg (by simp [hlg])]

/-- The cycle recorded by the DFS (path suffix from the first occurrence of
the back-edge target, closed by that target) is a genuine closed chain. -/
theorem cycleSlice_sound {g : Graph} {path : List String} {node dep : String}
    (hchain : List.Chain' (depEdge g) path)
    (hlast : path.getLast? = some node)
    (hdep : dep ∈ path) (hedge : depEdge g node dep) :
    IsCycleList g (cycleSlice path dep) := by
  have hi : path.indexOf dep < path.length := List.indexOf_lt_length.mpr hdep
  have hdropne : path.drop (path.indexOf dep) ≠ [] := by
    rw [Ne, List.drop_eq_nil_iff]
    omega
  have hhead : (path.drop (path.indexOf dep)).head? = some dep := by
    rw [List.head?_drop, List.getElem?_eq_getElem hi, List.getElem_indexOf hi]
  have hdlast : (path.drop (path.indexOf dep)).getLast? = some node := by
    rw [← List.getLast?_append_of_ne_nil (path.take (path.indexOf dep)) hdropne,
      List.take_append_drop]
    exact hlast
  refine ⟨?_, ?_, ?_⟩
  · unfold cycleSlice
    rw [List.length_append, List.length_drop, List.length_singleton]
    omega
  · unfold cycleSlice
    rw [List.getLast?_concat]
    cases hd : (path.drop (path.indexOf dep)) with
    | nil => exact absurd hd hdropne
    | cons x xs =>
      rw [hd] at hhead
      simp only [List.head?_cons, Option.some.injEq] at hhead
      simp [hhead]
  · unfold cycleSlice
    rw [List.chain'_append]
    refine ⟨hchain.suffix (List.drop_suffix _ _), List.chain'_singleton _, ?_⟩
    intro x hx y hy
    simp only [List.head?_cons, Option.mem_def, Option.some.injEq] at hy
    rw [hdlast] at hx
    simp only [Option.mem_def, Option.some.injEq] at hx
    subst hx
    subst hy
    exact hedge

/-- Soundness of the DFS of `detect_cycles`: the path returns to its input
value and every accumulated cycle is a genuine closed chain. -/
theorem dfsAux_sound {g : Graph} :
    ∀ (fuel : Nat) (node : String) (s : DfsSt),
      List.Chain' (depEdge g) (s.path ++ [node]) →
      (∀ c ∈ s.cycles, IsCycleList g c) →
      (dfsAux g fuel node s).path = s.path ∧
        ∀ c ∈ (dfsAux g fuel node s).cycles, IsCycleList g c
  | 0, node, s, _, hc => ⟨rfl, hc⟩
  | fuel + 1, node, s, hchain, hcycles => by
      -- invariant through the fold over the dependencies
      have H : ∀ (ds : List String), (∀ d ∈ ds, d ∈ depsOf g node) →
          ∀ (st : DfsSt), st.path = s.path ++ [node] →
          (∀ c ∈ st.cycles, IsCycleList g c) →
          (ds.foldl
            (fun st dep =>
              if dep ∈ st.visited then
                if dep ∈ st.path then
                  { st with cycles := st.cycles ++ [cycleSlice st.path dep] }
                else st
              else dfsAux g fuel dep st)
            st).path = s.path ++ [node] ∧
          ∀ c ∈ (ds.foldl
            (fun st dep =>
              if dep ∈ st.visited then
                if dep ∈ st.path then
                  { st with cycles := st.cycles ++ [cycleSlice st.path dep] }
                else st
              else dfsAux g fuel dep st)
            st).cycles, IsCycleList g c := by
        intro ds
        induction ds with
        | nil => intro _ st hp hcy; exact ⟨hp, hcy⟩
        | cons d ds ih =>
          intro hds st hp hcy
          rw [List.foldl_cons]
          by_cases hv : d ∈ st.visited
          · by_cases hpth : d ∈ st.path
            · rw [if_pos hv, if_pos hpth]
              refine ih (fun x hx => hds x (List.mem_cons_of_mem _ hx)) _ hp ?_
              intro c hcm
              rcases List.mem_append.mp hcm with h | h
              · exact hcy c h
              · rcases List.mem_singleton.mp h with rfl
                refine cycleSlice_sound ?_ ?_ hpth (hds d (List.mem_cons_self _ _))
                · rw [hp]
                  exact hchain
                · rw [hp]
                  exact List.getLast?_concat _
            · rw [if_pos hv, if_neg hpth]
              exact ih (fun x hx => hds x (List.mem_cons_of_mem _ hx)) _ hp hcy
          · rw [if_neg hv]
            have hrec := dfsAux_sound fuel d st
              (by
                rw [hp]
                rw [List.chain'_append]
                refine ⟨?_, List.chain'_singleton _, ?_⟩
                · rw [← hp]
                  rw [hp]
                  exact hchain
                · intro x hx y hy
                  simp only [List.head?_cons, Option.mem_def, Option.some.injEq] at hy
                  rw [List.getLast?_concat] at hx
                  simp only [Option.mem_def, Option.some.injEq] at hx
                  subst hx
                  subst hy
                  exact hds d (List.mem_cons_self _ _))
              hcy
            refine ih (fun x hx => hds x (List.mem_cons_of_mem _ hx)) _ ?_ hrec.2
            rw [hrec.1, hp]
      have hres := H (depsOf g node) (fun d hd => hd)
        ⟨s.visited ++ [node], s.path ++ [node], s.cycles⟩ rfl hcycles
      refine ⟨?_, ?_⟩
      · simp only [dfsAux]
        rw [hres.1]
        simp
      · simp only [dfsAux]
        exact hres.2

/-- Every cycle returned by `detect_cycles` is a genuine closed chain. -/
theorem detectCycles_sound {g : Graph} : ∀ c ∈ detectCycles g, IsCycleList g c := by
  unfold detectCycles
  have H : ∀ (ks : List String) (s : DfsSt), s.path = [] →
      (∀ c ∈ s.cycles, IsCycleList g c) →
      (ks.foldl
        (fun s node => if node ∈ s.visited then s else dfsAux g (g.length + 1) node s)
        s).path = [] ∧
      ∀ c ∈ (ks.foldl
        (fun s node => if node ∈ s.visited then s else dfsAux g (g.length + 1) node s)
        s).cycles, IsCycleList g c := by
    intro ks
    induction ks with
    | nil => intro s hp hcy; exact ⟨hp, hcy⟩
    | cons k ks ih =>
      intro s hp hcy
      rw [List.foldl_cons]
      by_cases hv : k ∈ s.visited
      · rw [if_pos hv]
        exact ih s hp hcy
      · rw [if_neg hv]
        have hrec := dfsAux_sound (g.length + 1) k s
          (by rw [hp]; exact List.chain'_singleton _) hcy
        exact ih _ (by rw [hrec.1, hp]) hrec.2
  exact (H (keysOf g) ⟨[], [], []⟩ rfl (fun c hc => absurd hc (List.not_mem_nil _))).2

/-- A chain starting at `x` through a non-empty tail reaches its last
element in at least one step. -/
theorem chain'_transGen {g : Graph} :
    ∀ (l : List String) (x y : String),
      List.Chain' (depEdge g) (x :: l) → (x :: l).getLast? = some y → l ≠ [] →
      Relation.TransGen (depEdge g) x y
  | [], _, _, _, _, hne => absurd rfl hne
  | [b], x, y, hchain, hlast, _ => by
      simp only [List.getLast?_cons_cons, List.getLast?_singleton,
        Option.some.injEq] at hlast
      subst hlast
      exact Relation.TransGen.single ((List.chain'_cons.mp hchain).1
        )
  | b :: c :: l, x, y, hchain, hlast, _ => by
      rcases List.chain'_cons.mp hchain with ⟨hxy, htail⟩
      refine Relation.TransGen.head hxy ?_
      refine chain'_transGen (c :: l) b y htail ?_ (by simp)
      simpa using hlast

/-- A genuine closed chain witnesses a cycle of the graph. -/
theorem hasCycle_of_cycleList {g : Graph} {c : List String}
    (h : IsCycleList g c) : HasCycle g := by
  obtain ⟨hlen, hhl, hchain⟩ := h
  cases c with
  | nil => simp at hlen
  | cons a rest =>
    cases rest with
    | nil => simp at hlen
    | cons b rest' =>
      refine ⟨a, ?_⟩
      have hlast : (a :: b :: rest').getLast? = some a := by
        rw [← hhl]
        rfl
      exact chain'_transGen (b :: rest') a a hchain hlast (by simp)

/-- A non-empty cycle scan means the graph has a cycle; contrapositively an
acyclic graph always scans clean. -/
theorem detectCycles_nil_of_acyclic {g : Graph} (hA : ¬ HasCycle g) :
    detectCycles g = [] := by
  cases hd : detectCycles g with
  | nil => rfl
  | cons c cs =>
    exfalso
    apply hA
    refine hasCycle_of_cycleList (detectCycles_sound c ?_)
    rw [hd]
    exact List.mem_cons_self _ _

theorem indexOf_lt_of_mem_take :
    ∀ {l : List String} {i : Nat} {d : String}, d ∈ l.take i → l.indexOf d < i
  | [], i, d, h => by simp at h
  | a :: l, 0, d, h => by simp at h
  | a :: l, i + 1, d, h => by
      rw [List.take_succ_cons] at h
      rcases List.mem_cons.mp h with rfl | h
      · simp
      · by_cases hd : a = d
        · subst hd
          simp
        · rw [List.indexOf_cons_ne _ (by exact hd)]
          have := indexOf_lt_of_mem_take h
          omega

theorem indexOf_lt_of_order {g : Graph} {l : List String} (hnd : l.Nodup)
    (horder : ∀ i : Fin l.length, ∀ d ∈ depsOf g (l.get i), d ∈ l.take i)
    {v d : String} (hv : v ∈ l) (hd : d ∈ depsOf g v) :
    l.indexOf d < l.indexOf v := by
  rcases List.mem_iff_get.mp hv with ⟨i, rfl⟩
  have h1 : l.indexOf d < (i : Nat) := indexOf_lt_of_mem_take (horder i d hd)
  have h2 : l.indexOf (l.get i) = i := List.get_indexOf hnd i
  rw [h2]
  exact h1

theorem edge_source_key {g : Graph} {x y : String} (h : depEdge g x y) :
    x ∈ keysOf g := by
  unfold depEdge depsOf at h
  cases hl : g.lookup x with
  | none => rw [hl] at h; exact absurd h (List.not_mem_nil _)
  | some ds => exact List.mem_map.mpr ⟨(x, ds), mem_of_lookup hl, rfl⟩

/-- A list containing every node, with each node's dependencies occurring
strictly earlier, rules out any cycle. -/
theorem acyclic_of_order {g : Graph} (_hW : WFGraph g) {fo : List String}
    (hnd : fo.Nodup) (hmem : ∀ v ∈ keysOf g, v ∈ fo)
    (horder : ∀ i : Fin fo.length, ∀ d ∈ depsOf g (fo.get i), d ∈ fo.take i) :
    ¬ HasCycle g := by
  rintro ⟨a, htg⟩
  have hstep : ∀ x y, depEdge g x y → fo.indexOf y < fo.indexOf x := by
    intro x y hxy
    exact indexOf_lt_of_order hnd horder (hmem x (edge_source_key hxy)) hxy
  have hlt : ∀ x y, Relation.TransGen (depEdge g) x y →
      fo.indexOf y < fo.indexOf x := by
    intro x y h
    induction h with
    | single h => exact hstep _ _ h
    | tail _ h ih => exact lt_trans (hstep _ _ h) ih
  exact lt_irrefl _ (hlt a a htg)

/-- Claim C1: for every acyclic graph accepted by `load_graph`,
`topological_sort` returns a list containing each node id exactly once
(its length equals the node count), and every dependency of a node appears
strictly before that node in the list. -/
theorem c1_sort_correct :
    ∀ (records : List (String × JValue)) (g : Graph),
      loadGraph records = .ok g → ¬ HasCycle g →
      ∃ l, topologicalSort g = .ok l ∧
        l.length = (keysOf g).length ∧
        l.Nodup ∧
        (∀ v, v ∈ l ↔ v ∈ keysOf g) ∧
        (∀ v ∈ l, ∀ d ∈ depsOf g v, l.indexOf d < l.indexOf v) := by
  intro records g hload hA
  have hW := loadGraph_wf hload
  have hcy := detectCycles_nil_of_acyclic hA
  rcases sort_ok_of_acyclic hW hcy hA with ⟨l, hok, hout, hmem, hlen⟩
  exact ⟨l, hok, hlen, hout.1, hmem,
    fun v hv d hd => indexOf_lt_of_order hout.1 hout.2.2.1 hv hd⟩

theorem filter_unvisited_eq {ks vis vis' : List String}
    (hsub : ∀ x ∈ vis, x ∈ vis') :
    ks.filter (fun u => u ∉ vis') =
      (ks.filter (fun u => u ∉ vis)).filter (fun u => u ∉ vis') := by
  rw [List.filter_filter]
  refine (List.filter_congr ?_)
  intro a _
  by_cases h : a ∈ vis'
  · have : a ∈ vis → a ∈ vis' := hsub a
    simp [h]
  · have hv : a ∉ vis := fun hc => h (hsub a hc)
    simp [h, hv]

theorem filter_unvisited_le {ks vis vis' : List String}
    (hsub : ∀ x ∈ vis, x ∈ vis') :
    (ks.filter (fun u => u ∉ vis')).length ≤
      (ks.filter (fun u => u ∉ vis)).length := by
  rw [filter_unvisited_eq hsub]
  exact (List.filter_sublist _).length_le

theorem filter_unvisited_lt {ks vis vis' : List String} {node : String}
    (hsub : ∀ x ∈ vis, x ∈ vis') (hnk : node ∈ ks) (hnv : node ∉ vis)
    (hnv' : node ∈ vis') :
    (ks.filter (fun u => u ∉ vis')).length <
      (ks.filter (fun u => u ∉ vis)).length := by
  have heq := @filter_unvisited_eq ks vis vis' hsub
  have hsl : List.Sublist (ks.filter (fun u => u ∉ vis'))
      (ks.filter (fun u => u ∉ vis)) := by
    rw [heq]
    exact List.filter_sublist _
  refine lt_of_le_of_ne hsl.length_le ?_
  intro hlen
  have hequal := hsl.eq_of_length hlen
  have hm : node ∈ ks.filter (fun u => u ∉ vis) :=
    List.mem_filter.mpr ⟨hnk, by simp [hnv]⟩
  rw [← hequal] at hm
  rcases List.mem_filter.mp hm with ⟨_, hm2⟩
  simp [hnv'] at hm2

theorem dfsAux_succ (g : Graph) (fuel : Nat) (node : String) (s : DfsSt) :
    dfsAux g (fuel + 1) node s =
      { (depsOf g node).foldl (dfsFoldStep g fuel)
          ⟨s.visited ++ [node], s.path ++ [node], s.cycles⟩ with
        path := ((depsOf g node).foldl (dfsFoldStep g fuel)
          ⟨s.visited ++ [node], s.path ++ [node], s.cycles⟩).path.dropLast } := rfl

/-- Completeness of the DFS of `detect_cycles`: with enough fuel, starting
at an unvisited node, the DFS visits the node, restores the path, only
appends cycles, and maintains a finish order in which (absent any recorded
cycle) every finished node's dependencies finish strictly earlier. -/
theorem dfsAux_complete {g : Graph} (hW : WFGraph g) :
    ∀ (fuel : Nat) (node : String) (s : DfsSt) (fo : List String),
      node ∈ keysOf g →
      node ∉ s.visited →
      ((keysOf g).filter (fun u => u ∉ s.visited)).length < fuel →
      (∀ v ∈ s.path, v ∈ s.visited) →
      (∀ v ∈ s.visited, v ∈ keysOf g) →
      (∀ v, v ∈ fo ↔ v ∈ s.visited ∧ v ∉ s.path) →
      fo.Nodup →
      (s.cycles = [] → OrderedByDeps g fo) →
      (dfsAux g fuel node s).path = s.path ∧
      (∀ v ∈ s.visited, v ∈ (dfsAux g fuel node s).visited) ∧
      node ∈ (dfsAux g fuel node s).visited ∧
      (∀ v ∈ (dfsAux g fuel node s).visited, v ∈ keysOf g) ∧
      (∀ v ∈ (dfsAux g fuel node s).path, v ∈ (dfsAux g fuel node s).visited) ∧
      (∃ ext, (dfsAux g fuel node s).cycles = s.cycles ++ ext) ∧
      ∃ fo', (∀ v, v ∈ fo' ↔ v ∈ (dfsAux g fuel node s).visited ∧ v ∉ s.path) ∧
        fo'.Nodup ∧
        ((dfsAux g fuel node s).cycles = [] → OrderedByDeps g fo')
  | 0, node, s, fo, hnk, hnv, hfuel, hpv, hvk, hfo, hfond, hford =>
      absurd hfuel (Nat.not_lt_zero _)
  | fuel + 1, node, s, fo, hnk, hnv, hfuel, hpv, hvk, hfo, hfond, hford => by
      have hnotpath : node ∉ s.path := fun hc => hnv (hpv node hc)
      have H : ∀ (ds : List String), (∀ x ∈ ds, x ∈ depsOf g node) →
          ∀ (st : DfsSt) (fo1 : List String),
          st.path = s.path ++ [node] →
          (∀ v ∈ st.path, v ∈ st.visited) →
          (∀ v ∈ st.visited, v ∈ keysOf g) →
          ((keysOf g).filter (fun u => u ∉ st.visited)).length < fuel →
          (∀ v, v ∈ fo1 ↔ v ∈ st.visited ∧ v ∉ st.path) →
          fo1.Nodup →
          (st.cycles = [] → OrderedByDeps g fo1) →
          (ds.foldl (dfsFoldStep g fuel) st).path = s.path ++ [node] ∧
          (∀ v ∈ st.visited, v ∈ (ds.foldl (dfsFoldStep g fuel) st).visited) ∧
          (∀ v ∈ (ds.foldl (dfsFoldStep g fuel) st).visited, v ∈ keysOf g) ∧
          (∀ v ∈ (ds.foldl (dfsFoldStep g fuel) st).path,
            v ∈ (ds.foldl (dfsFoldStep g fuel) st).visited) ∧
          ((keysOf g).filter
            (fun u => u ∉ (ds.foldl (dfsFoldStep g fuel) st).visited)).length < fuel ∧
          (∃ ext, (ds.foldl (dfsFoldStep g fuel) st).cycles = st.cycles ++ ext) ∧
          (∃ fo2, (∀ v, v ∈ fo2 ↔
              v ∈ (ds.foldl (dfsFoldStep g fuel) st).visited ∧ v ∉ s.path ++ [node]) ∧
            fo2.Nodup ∧
            ((ds.foldl (dfsFoldStep g fuel) st).cycles = [] → OrderedByDeps g fo2)) ∧
          (∀ x ∈ ds, x ∈ (ds.foldl (dfsFoldStep g fuel) st).visited ∧
            ((ds.foldl (dfsFoldStep g fuel) st).cycles = [] →
              x ∉ s.path ++ [node])) := by
        intro ds
        induction ds with
        | nil =>
          intro _ st fo1 h1 h2 h3 h4 h5 h6 h7
          refine ⟨h1, fun v hv => hv, h3, h2, h4, ⟨[], by simp⟩,
            ⟨fo1, ?_, h6, h7⟩, by simp⟩
          rw [← h1]
          exact h5
        | cons d ds ih =>
          intro hds st fo1 h1 h2 h3 h4 h5 h6 h7
          by_cases hvis : d ∈ st.visited
          · by_cases hpth : d ∈ st.path
            · have he : dfsFoldStep g fuel st d =
                  { st with cycles := st.cycles ++ [cycleSlice st.path d] } := by
                unfold dfsFoldStep
                rw [if_pos hvis, if_pos hpth]
              simp only [List.foldl_cons, he]
              have hres := ih (fun x hx => hds x (List.mem_cons_of_mem _ hx))
                { st with cycles := st.cycles ++ [cycleSlice st.path d] } fo1
                h1 h2 h3 h4 h5 h6
                (by
                  intro hc
                  exact absurd hc (by simp))
              obtain ⟨c1, c2, c3, c4, c5, ⟨ext, c6⟩, c7, c8⟩ := hres
              refine ⟨c1, c2, c3, c4, c5, ⟨[cycleSlice st.path d] ++ ext, ?_⟩, c7, ?_⟩
              · rw [c6]
                simp
              · intro x hx
                rcases List.mem_cons.mp hx with rfl | hx'
                · refine ⟨c2 x hvis, ?_⟩
                  intro hnil
                  rw [c6] at hnil
                  exact absurd hnil (by simp)
                · exact c8 x hx'
            · have he : dfsFoldStep g fuel st d = st := by
                unfold dfsFoldStep
                rw [if_pos hvis, if_neg hpth]
              simp only [List.foldl_cons, he]
              have hres := ih (fun x hx => hds x (List.mem_cons_of_mem _ hx))
                st fo1 h1 h2 h3 h4 h5 h6 h7
              obtain ⟨c1, c2, c3, c4, c5, c6, c7, c8⟩ := hres
              refine ⟨c1, c2, c3, c4, c5, c6, c7, ?_⟩
              intro x hx
              rcases List.mem_cons.mp hx with rfl | hx'
              · refine ⟨c2 x hvis, fun _ => ?_⟩
                rw [← h1]
                exact hpth
              · exact c8 x hx'
          · have he : dfsFoldStep g fuel st d = dfsAux g fuel d st := by
              unfold dfsFoldStep
              rw [if_neg hvis]
            simp only [List.foldl_cons, he]
            have hd_key : d ∈ keysOf g :=
              hW.2 (node, depsOf g node) (mem_of_depsOf hnk) d
                (hds d (List.mem_cons_self _ _))
            obtain ⟨r1, r2, r3, r4, r5, ⟨ext0, r6⟩, fo', rf1, rf2, rf3⟩ :=
              dfsAux_complete hW fuel d st fo1 hd_key hvis h4 h2 h3 h5 h6 h7
            have hres := ih (fun x hx => hds x (List.mem_cons_of_mem _ hx))
              (dfsAux g fuel d st) fo'
              (by rw [r1, h1])
              r5
              r4
              (lt_of_le_of_lt (filter_unvisited_le r2) h4)
              (by rw [r1]; exact rf1)
              rf2 rf3
            obtain ⟨c1, c2, c3, c4, c5, ⟨ext, c6⟩, c7, c8⟩ := hres
            refine ⟨c1, fun v hv => c2 v (r2 v hv), c3, c4, c5,
              ⟨ext0 ++ ext, by rw [c6, r6]; simp⟩, c7, ?_⟩
            intro x hx
            rcases List.mem_cons.mp hx with rfl | hx'
            · refine ⟨c2 x r3, fun _ => ?_⟩
              rw [← h1]
              intro hc
              exact hvis (h2 x hc)
            · exact c8 x hx'
      -- apply the fold invariant at the entry state
      have hs1vk : ∀ v ∈ s.visited ++ [node], v ∈ keysOf g := by
        intro v hv
        rcases List.mem_append.mp hv with h | h
        · exact hvk v h
        · rcases List.mem_singleton.mp h with rfl
          exact hnk
      have hs1pv : ∀ v ∈ s.path ++ [node], v ∈ s.visited ++ [node] := by
        intro v hv
        rcases List.mem_append.mp hv with h | h
        · exact List.mem_append.mpr (Or.inl (hpv v h))
        · exact List.mem_append.mpr (Or.inr h)
      have hs1fuel :
          ((keysOf g).filter (fun u => u ∉ s.visited ++ [node])).length < fuel := by
        have hlt := @filter_unvisited_lt (keysOf g) s.visited (s.visited ++ [node]) node
          (fun x hx => List.mem_append.mpr (Or.inl hx)) hnk hnv
          (List.mem_append.mpr (Or.inr (List.mem_singleton.mpr rfl)))
        omega
      have hs1fo : ∀ v, v ∈ fo ↔ v ∈ s.visited ++ [node] ∧ v ∉ s.path ++ [node] := by
        intro v
        rw [hfo v]
        constructor
        · rintro ⟨hm1, hm2⟩
          refine ⟨List.mem_append.mpr (Or.inl hm1), ?_⟩
          intro hc
          rcases List.mem_append.mp hc with h | h
          · exact hm2 h
          · rcases List.mem_singleton.mp h with rfl
            exact hnv hm1
        · rintro ⟨hm1, hm2⟩
          have hvn : v ≠ node := by
            rintro rfl
            exact hm2 (List.mem_append.mpr (Or.inr (List.mem_singleton.mpr rfl)))
          rcases List.mem_append.mp hm1 with h | h
          · exact ⟨h, fun hc => hm2 (List.mem_append.mpr (Or.inl hc))⟩
          · exact absurd (List.mem_singleton.mp h) hvn
      have hres := H (depsOf g node) (fun x hx => hx)
        ⟨s.visited ++ [node], s.path ++ [node], s.cycles⟩ fo
        rfl hs1pv hs1vk hs1fuel hs1fo hfond hford
      obtain ⟨c1, c2, c3, c4, c5, ⟨ext, c6⟩, ⟨fo2, cf1, cf2, cf3⟩, c8⟩ := hres
      rw [dfsAux_succ]
      set F := (depsOf g node).foldl (dfsFoldStep g fuel)
        ⟨s.visited ++ [node], s.path ++ [node], s.cycles⟩ with hF
      refine ⟨?_, ?_, ?_, ?_, ?_, ?_, ?_⟩
      · show F.path.dropLast = s.path
        rw [c1]
        simp
      · show ∀ v ∈ s.visited, v ∈ F.visited
        intro v hv
        exact c2 v (List.mem_append.mpr (Or.inl hv))
      · show node ∈ F.visited
        exact c2 node (List.mem_append.mpr (Or.inr (List.mem_singleton.mpr rfl)))
      · show ∀ v ∈ F.visited, v ∈ keysOf g
        exact c3
      · show ∀ v ∈ F.path.dropLast, v ∈ F.visited
        intro v hv
        rw [c1, List.dropLast_concat] at hv
        exact c2 v (List.mem_append.mpr (Or.inl (hpv v hv)))
      · show ∃ ext, F.cycles = s.cycles ++ ext
        exact ⟨ext, c6⟩
      · show ∃ fo', (∀ v, v ∈ fo' ↔ v ∈ F.visited ∧ v ∉ s.path) ∧ fo'.Nodup ∧
          (F.cycles = [] → OrderedByDeps g fo')
        refine ⟨fo2 ++ [node], ?_, ?_, ?_⟩
        · intro v
          constructor
          · intro hv
            rcases List.mem_append.mp hv with h | h
            · obtain ⟨hh1, hh2⟩ := (cf1 v).mp h
              exact ⟨hh1, fun hc => hh2 (List.mem_append.mpr (Or.inl hc))⟩
            · rcases List.mem_singleton.mp h with rfl
              exact ⟨c2 v (List.mem_append.mpr (Or.inr (List.mem_singleton.mpr rfl))),
                hnotpath⟩
          · rintro ⟨hm1, hm2⟩
            by_cases hvn : v = node
            · subst hvn
              exact List.mem_append.mpr (Or.inr (List.mem_singleton.mpr rfl))
            · refine List.mem_append.mpr (Or.inl ((cf1 v).mpr ⟨hm1, ?_⟩))
              intro hc
              rcases List.mem_append.mp hc with h | h
              · exact hm2 h
              · exact hvn (List.mem_singleton.mp h)
        · refine List.nodup_append.mpr ⟨cf2, List.nodup_singleton _, ?_⟩
          intro a ha hc
          rcases List.mem_singleton.mp hc with rfl
          obtain ⟨_, hh2⟩ := (cf1 a).mp ha
          exact hh2 (List.mem_append.mpr (Or.inr (List.mem_singleton.mpr rfl)))
        · intro hnil
          have hford2 := cf3 hnil
          intro i d hd
          by_cases hi : (i : Nat) < fo2.length
          · have hget : (fo2 ++ [node]).get i = fo2.get ⟨i, hi⟩ := by
              rw [List.get_eq_getElem, List.get_eq_getElem, List.getElem_append_left]
            rw [hget] at hd
            have htake : (fo2 ++ [node]).take i = fo2.take i := by
              rw [List.take_append_of_le_length (le_of_lt hi)]
            rw [htake]
            exact hford2 ⟨i, hi⟩ d hd
          · have hieq : (i : Nat) = fo2.length := by
              have := i.isLt
              simp only [List.length_append, List.length_singleton] at this
              omega
            have hget : (fo2 ++ [node]).get i = node := by
              rw [List.get_eq_getElem]
              have h2 : (i : Nat) - fo2.length = 0 := by omega
              rw [List.getElem_append_right (by omega)]
              simp [h2]
            rw [hget] at hd
            have htake : (fo2 ++ [node]).take i = fo2 := by
              rw [hieq, List.take_left]
            rw [htake]
            obtain ⟨hd1, hd2⟩ := c8 d hd
            exact (cf1 d).mpr ⟨hd1, hd2 hnil⟩

theorem detectCycles_eq (g : Graph) :
    detectCycles g = ((keysOf g).foldl (detectStep g) ⟨[], [], []⟩).cycles := rfl

/-- Completeness of `detect_cycles`: an empty scan implies the graph is
acyclic (the finish order maintained by the DFS is a topological order). -/
theorem detectCycles_complete {g : Graph} (hW : WFGraph g)
    (hnil : detectCycles g = []) : ¬ HasCycle g := by
  have H : ∀ (ks : List String), (∀ k ∈ ks, k ∈ keysOf g) →
      ∀ (s : DfsSt), s.path = [] →
      (∀ v ∈ s.visited, v ∈ keysOf g) →
      (∃ fo, (∀ v, v ∈ fo ↔ v ∈ s.visited) ∧ fo.Nodup ∧
        (s.cycles = [] → OrderedByDeps g fo)) →
      (ks.foldl (detectStep g) s).path = [] ∧
      (∀ v ∈ (ks.foldl (detectStep g) s).visited, v ∈ keysOf g) ∧
      (∃ fo, (∀ v, v ∈ fo ↔ v ∈ (ks.foldl (detectStep g) s).visited) ∧ fo.Nodup ∧
        ((ks.foldl (detectStep g) s).cycles = [] → OrderedByDeps g fo)) ∧
      (∀ k ∈ ks, k ∈ (ks.foldl (detectStep g) s).visited) ∧
      (∀ v ∈ s.visited, v ∈ (ks.foldl (detectStep g) s).visited) := by
    intro ks
    induction ks with
    | nil =>
      intro _ s h1 h2 h3
      exact ⟨h1, h2, h3, by simp, fun v hv => hv⟩
    | cons k ks ih =>
      intro hks s h1 h2 h3
      by_cases hv : k ∈ s.visited
      · have he : detectStep g s k = s := by
          unfold detectStep
          rw [if_pos hv]
        simp only [List.foldl_cons, he]
        obtain ⟨q1, q2, q3, q4, q5⟩ :=
          ih (fun x hx => hks x (List.mem_cons_of_mem _ hx)) s h1 h2 h3
        refine ⟨q1, q2, q3, ?_, q5⟩
        intro x hx
        rcases List.mem_cons.mp hx with rfl | hx'
        · exact q5 x hv
        · exact q4 x hx'
      · have he : detectStep g s k = dfsAux g (g.length + 1) k s := by
          unfold detectStep
          rw [if_neg hv]
        simp only [List.foldl_cons, he]
        obtain ⟨fo, f1, f2, f3⟩ := h3
        have hfuel : ((keysOf g).filter (fun u => u ∉ s.visited)).length
            < g.length + 1 := by
          have hle : ((keysOf g).filter (fun u => u ∉ s.visited)).length
              ≤ (keysOf g).length := (List.filter_sublist _).length_le
          have hkl : (keysOf g).length = g.length := by simp [keysOf]
          omega
        obtain ⟨r1, r2, r3, r4, r5, r6, fo', rf1, rf2, rf3⟩ :=
          dfsAux_complete hW (g.length + 1) k s fo (hks k (List.mem_cons_self _ _))
            hv hfuel
            (by rw [h1]; intro v hv'; exact absurd hv' (List.not_mem_nil _))
            h2
            (by
              intro v
              rw [f1 v, h1]
              simp)
            f2
            (by
              intro hc
              exact f3 hc)
        obtain ⟨q1, q2, q3, q4, q5⟩ :=
          ih (fun x hx => hks x (List.mem_cons_of_mem _ hx))
            (dfsAux g (g.length + 1) k s)
            (by rw [r1, h1])
            r4
            ⟨fo', by
              intro v
              rw [rf1 v, h1]
              simp, rf2, rf3⟩
        refine ⟨q1, q2, q3, ?_, fun v hv' => q5 v (r2 v hv')⟩
        intro x hx
        rcases List.mem_cons.mp hx with rfl | hx'
        · exact q5 x r3
        · exact q4 x hx'
  rw [detectCycles_eq] at hnil
  obtain ⟨p1, p2, ⟨fo, f1, f2, f3⟩, p4, p5⟩ :=
    H (keysOf g) (fun k hk => hk) ⟨[], [], []⟩ rfl
      (by intro v hv; exact absurd hv (List.not_mem_nil _))
      ⟨[], by simp, List.nodup_nil, fun _ i => absurd i.isLt (by simp)⟩
  exact acyclic_of_order hW f2 (fun v hv => (f1 v).mpr (p4 v hv)) (f3 hnil)

theorem sort_eq_cyclic {g : Graph} (hne : detectCycles g ≠ []) :
    topologicalSort g = .error (.cyclic (detectCycles g)) := by
  have hie : (detectCycles g).isEmpty = false := by
    cases hd : detectCycles g with
    | nil => exact absurd hd hne
    | cons c cs => rfl
  unfold topologicalSort
  simp [hie]

theorem sort_ok_elim {g : Graph} {l : List String}
    (h : topologicalSort g = .ok l) :
    detectCycles g = [] ∧
    l = (kahnLoop g (g.length + 1)
      (List.insertionSort pyLe ((g.filter (fun p => p.2.isEmpty)).map Prod.fst))
      [] (fun v => ((depsOf g v).length : Int))).1 := by
  cases hie : (detectCycles g).isEmpty with
  | false =>
    have hne : detectCycles g ≠ [] := by
      intro hc
      rw [hc] at hie
      simp at hie
    rw [sort_eq_cyclic hne] at h
    exact absurd h (by simp)
  | true =>
    have hcy : detectCycles g = [] := List.isEmpty_iff.mp hie
    refine ⟨hcy, ?_⟩
    unfold topologicalSort at h
    simp only [hcy, List.isEmpty_nil, if_true] at h
    split at h
    · exact absurd h (by simp)
    · cases h
      rfl

/-- Claim C2: for every graph accepted by `load_graph` containing at least
one cycle (a self-loop included), `topological_sort` raises the
cyclic-dependency error before computing any order; the error carries the
full (non-empty) list of detected cycles, and no ordering is returned. -/
theorem c2_cycle_error :
    ∀ (records : List (String × JValue)) (g : Graph),
      loadGraph records = .ok g → HasCycle g →
      detectCycles g ≠ [] ∧
      topologicalSort g = .error (.cyclic (detectCycles g)) := by
  intro records g hload hcyc
  have hW := loadGraph_wf hload
  have hne : detectCycles g ≠ [] := fun hnil =>
    detectCycles_complete hW hnil hcyc
  exact ⟨hne, sort_eq_cyclic hne⟩

/-- Witness for claim C2 at a concrete input (a self-loop). -/
theorem c2_cycle_error_witness :
    detectCycles [("a", ["a"])] ≠ [] ∧
    topologicalSort [("a", ["a"])] =
      .error (.cyclic (detectCycles [("a", ["a"])])) :=
  c2_cycle_error [("a", .jobj [("deps", .jlist [.jstr "a"])])] [("a", ["a"])] rfl
    ⟨"a", Relation.TransGen.single (by decide)⟩

/-- Claim C8: the incomplete-sort branch is unreachable: for every graph
accepted by `load_graph`, `topological_sort` never raises the
incomplete-sort error — when `detect_cycles` finds nothing, Kahn's loop
processes every node and the defensive length check cannot fire. -/
theorem c8_incomplete_unreachable :
    ∀ (records : List (String × JValue)) (g : Graph),
      loadGraph records = .ok g →
      ∀ uns, topologicalSort g ≠ .error (.incomplete uns) := by
  intro records g hload uns
  have hW := loadGraph_wf hload
  cases hd : detectCycles g with
  | cons c cs =>
    have hne : detectCycles g ≠ [] := by
      rw [hd]
      simp
    rw [sort_eq_cyclic hne]
    intro hc
    simp at hc
  | nil =>
    have hA := detectCycles_complete hW hd
    rcases sort_ok_of_acyclic hW hd hA with ⟨l, hok, _⟩
    rw [hok]
    intro hc
    exact Except.noConfusion hc

/-- Witness for claim C8 at a concrete input. -/
theorem c8_incomplete_unreachable_witness :
    topologicalSort [("a", [])] ≠ .error (.incomplete []) :=
  c8_incomplete_unreachable [("a", .jobj [])] [("a", [])] rfl []

/-- Claim C4 (amended): `detect_cycles` returns only genuine cycles, returns
at least one cycle exactly when the graph has a cycle, and continues after
recording a cycle (a graph with two disjoint self-loops yields both); but
it does not enumerate every elementary cycle (see the counterexample). -/
theorem c4_amended :
    ∀ (records : List (String × JValue)) (g : Graph),
      loadGraph records = .ok g →
      (∀ c ∈ detectCycles g, IsCycleList g c) ∧
      (detectCycles g = [] ↔ ¬ HasCycle g) ∧
      detectCycles [("a", ["a"]), ("b", ["b"])] = [["a", "a"], ["b", "b"]] := by
  intro records g hload
  have hW := loadGraph_wf hload
  exact ⟨fun c hc => detectCycles_sound c hc,
    ⟨fun h => detectCycles_complete hW h, fun hA => detectCycles_nil_of_acyclic hA⟩,
    rfl⟩

/-- Witness for the amended claim C4 at a concrete input. -/
theorem c4_amended_witness :
    (∀ c ∈ detectCycles [("a", ["b"]), ("b", [])],
      IsCycleList [("a", ["b"]), ("b", [])] c) ∧
    (detectCycles [("a", ["b"]), ("b", [])] = [] ↔
      ¬ HasCycle [("a", ["b"]), ("b", [])]) ∧
    detectCycles [("a", ["a"]), ("b", ["b"])] = [["a", "a"], ["b", "b"]] :=
  c4_amended [("a", .jobj [("deps", .jlist [.jstr "b"])]), ("b", .jobj [])]
    [("a", ["b"]), ("b", [])] rfl

/-- Witness for claim C1 at a concrete input. -/
theorem c1_sort_correct_witness :
    ∃ l, topologicalSort [("a", []), ("b", ["a"])] = .ok l ∧
      l.length = (keysOf [("a", []), ("b", ["a"])]).length ∧
      l.Nodup ∧
      (∀ v, v ∈ l ↔ v ∈ keysOf [("a", []), ("b", ["a"])]) ∧
      (∀ v ∈ l, ∀ d ∈ depsOf [("a", []), ("b", ["a"])] v,
        l.indexOf d < l.indexOf v) :=
  c1_sort_correct
    [("a", .jobj [("deps", .jlist [])]), ("b", .jobj [("deps", .jlist [.jstr "a"])])]
    [("a", []), ("b", ["a"])] rfl
    (detectCycles_complete
      (@loadGraph_wf
        [("a", .jobj [("deps", .jlist [])]),
         ("b", .jobj [("deps", .jlist [.jstr "a"])])]
        [("a", []), ("b", ["a"])] rfl)
      rfl)

/-- Claim C3 (amended): the lexicographic tie-break does hold at the initial
seeding: whenever two nodes both have no dependencies at all, the
lexicographically smaller one precedes the other in the output (the sorted
seed block is a prefix of the result; afterwards the queue is FIFO). -/
theorem c3_amended :
    ∀ (records : List (String × JValue)) (g : Graph) (l : List String),
      loadGraph records = .ok g → topologicalSort g = .ok l →
      ∀ a b, a ∈ keysOf g → b ∈ keysOf g →
        depsOf g a = [] → depsOf g b = [] → a < b →
        l.indexOf a < l.indexOf b := by
  intro records g l hload hsort a b hak hbk hda hdb hab
  have hW := loadGraph_wf hload
  obtain ⟨hcy, hleq⟩ := sort_ok_elim hsort
  -- the run drains the queue, so the result is the seeds followed by the rest
  obtain ⟨hqnil, _⟩ := kahnLoop_spec hW (g.length + 1)
    (List.insertionSort pyLe ((g.filter (fun p => p.2.isEmpty)).map Prod.fst))
    [] (fun v => ((depsOf g v).length : Int)) (initial_inv hW)
    (by simp [keysOf])
  obtain ⟨ext, hext⟩ := @kahnLoop_extends g (g.length + 1)
    (List.insertionSort pyLe ((g.filter (fun p => p.2.isEmpty)).map Prod.fst))
    [] (fun v => ((depsOf g v).length : Int))
  simp only [hqnil, List.append_nil, List.nil_append] at hext
  set ss := List.insertionSort pyLe ((g.filter (fun p => p.2.isEmpty)).map Prod.fst)
    with hss
  have hl : l = ss ++ ext := by
    rw [hleq]
    exact hext
  -- both nodes are seeds
  have hmem : ∀ v, v ∈ keysOf g → depsOf g v = [] → v ∈ ss := by
    intro v hk hd
    rw [hss]
    rw [(List.perm_insertionSort pyLe _).mem_iff]
    have hmemg : (v, []) ∈ g := by
      have := mem_of_depsOf hk
      rwa [hd] at this
    exact List.mem_map.mpr ⟨(v, []), List.mem_filter.mpr ⟨hmemg, by simp⟩, rfl⟩
  have has : a ∈ ss := hmem a hak hda
  have hbs : b ∈ ss := hmem b hbk hdb
  have hsnd : ss.Nodup := by
    rw [hss]
    refine (List.perm_insertionSort pyLe _).nodup_iff.mpr ?_
    exact List.Nodup.sublist ((List.filter_sublist g).map Prod.fst) hW.1
  have hsorted : List.Sorted pyLe ss := by
    rw [hss]
    exact List.sorted_insertionSort pyLe _
  -- position within the sorted seed block
  have hia : ss.indexOf a < ss.length := List.indexOf_lt_length.mpr has
  have hib : ss.indexOf b < ss.length := List.indexOf_lt_length.mpr hbs
  have hlt : ss.indexOf a < ss.indexOf b := by
    rcases Nat.lt_trichotomy (ss.indexOf a) (ss.indexOf b) with h | h | h
    · exact h
    · exfalso
      have : a = b := (List.indexOf_inj has hbs).mp h
      subst this
      exact lt_irrefl _ hab
    · exfalso
      have hr : pyLe (ss.get ⟨ss.indexOf b, hib⟩) (ss.get ⟨ss.indexOf a, hia⟩) :=
        List.Sorted.rel_get_of_lt hsorted h
      have hba : b ≤ a := by
        have h1 : ss.get ⟨ss.indexOf a, hia⟩ = a := List.getElem_indexOf hia
        have h2 : ss.get ⟨ss.indexOf b, hib⟩ = b := List.getElem_indexOf hib
        rw [h1, h2, pyLe_iff] at hr
        exact hr
      exact absurd hba (not_le_of_lt hab)
  have hifa : l.indexOf a = ss.indexOf a := by
    rw [hl]
    exact List.indexOf_append_of_mem has
  have hifb : l.indexOf b = ss.indexOf b := by
    rw [hl]
    exact List.indexOf_append_of_mem hbs
  rw [hifa, hifb]
  exact hlt

/-- Witness for the amended claim C3 at a concrete input. -/
theorem c3_amended_witness :
    List.indexOf "b" ["b", "x", "y", "a"] < List.indexOf "x" ["b", "x", "y", "a"] :=
  c3_amended
    [("a", .jobj [("deps", .jlist [.jstr "x"])]), ("b", .jobj [("deps", .jlist [])]),
     ("x", .jobj [("deps", .jlist [])]), ("y", .jobj [("deps", .jlist [])])]
    cg3 ["b", "x", "y", "a"] rfl rfl "b" "x" (by decide) (by decide) rfl rfl
    ((strLtB_iff "b" "x").mp (by decide))

theorem escape {g : Graph} {vis q : List String}
    (hinv : ∀ v ∈ vis, ∀ e ∈ depsOf g v, e ∈ vis ∨ e ∈ q) :
    ∀ {d u : String}, Relation.ReflTransGen (depEdge g) d u → d ∈ vis →
      u ∈ vis ∨ ∃ e ∈ q, Relation.ReflTransGen (depEdge g) e u := by
  intro d u h
  induction h using Relation.ReflTransGen.head_induction_on with
  | refl => exact fun hu => Or.inl hu
  | head h' _ ih =>
    intro ha
    rename_i a c _
    rcases hinv a ha c h' with hc | hc
    · exact ih hc
    · exact Or.inr ⟨c, hc, by assumption⟩

theorem filter_snoc_decomp (ks vis : List String) (d : String) :
    ks.filter (fun u => u ∉ vis ++ [d]) =
      (ks.filter (fun u => u ∉ vis)).filter (fun u => u ≠ d) := by
  rw [List.filter_filter]
  refine List.filter_congr ?_
  intro a _
  by_cases h1 : a ∈ vis
  · simp [h1]
  · by_cases h2 : a = d <;> simp [h1, h2]

theorem sum_erase_mem :
    ∀ {l : List String} (f : String → Nat) {d : String}, l.Nodup → d ∈ l →
      (((l.filter (fun u => u ≠ d)).map f).sum + f d = (l.map f).sum)
  | [], _, _, _, h => absurd h (List.not_mem_nil _)
  | a :: l, f, d, hnd, h => by
      rcases List.nodup_cons.mp hnd with ⟨hal, hl⟩
      rcases List.mem_cons.mp h with heq | hmem
      · have hfe : l.filter (fun u => u ≠ d) = l := by
          refine List.filter_eq_self.mpr ?_
          intro u hu
          simp only [decide_eq_true_eq]
          rintro rfl
          exact hal (heq ▸ hu)
        simp only [List.filter_cons]
        rw [if_neg (by simp [heq])]
        rw [hfe, List.map_cons, List.sum_cons, heq]
        omega
      · have hda : ¬ (a = d) := by
          rintro rfl
          exact hal hmem
        simp only [List.filter_cons]
        rw [if_pos (by simp [hda])]
        rw [List.map_cons, List.sum_cons, List.map_cons, List.sum_cons]
        have := sum_erase_mem f hl hmem
        omega

theorem keys_deps_sum (g : Graph) (hnd : (keysOf g).Nodup) :
    ((keysOf g).map (fun v => (depsOf g v).length)).sum =
      (g.flatMap Prod.snd).length := by
  induction g with
  | nil => simp [keysOf]
  | cons p g ih =>
    obtain ⟨k, ds⟩ := p
    simp only [keysOf, List.map_cons] at hnd ⊢
    rcases List.nodup_cons.mp hnd with ⟨hk, hnd2⟩
    have hdk : depsOf ((k, ds) :: g) k = ds := by
      simp [depsOf, List.lookup]
    have hmap : (g.map Prod.fst).map (fun v => (depsOf ((k, ds) :: g) v).length) =
        (g.map Prod.fst).map (fun v => (depsOf g v).length) := by
      refine List.map_congr_left ?_
      intro v hv
      have hvk : (v == k) = false := by
        simp only [beq_eq_false_iff_ne, ne_eq]
        rintro rfl
        exact hk hv
      simp only [depsOf, List.lookup, hvk]
    have ih2 : ((g.map Prod.fst).map (fun v => (depsOf g v).length)).sum =
        (g.flatMap Prod.snd).length := ih hnd2
    rw [List.sum_cons, hdk, hmap, ih2, List.flatMap_cons, List.length_append]

/-- The BFS closure loop of `get_subgraph` computes exactly the set of nodes
reachable from the initial queue (with the invariant that dependencies of
visited nodes are visited or queued). -/
theorem bfs_spec {g : Graph} (hW : WFGraph g) :
    ∀ (fuel : Nat) (q vis : List String),
      q.length + (((keysOf g).filter (fun u => u ∉ vis)).map
        (fun v => (depsOf g v).length)).sum < fuel →
      (∀ v ∈ vis, ∀ e ∈ depsOf g v, e ∈ vis ∨ e ∈ q) →
      ∀ v, v ∈ bfsClosure g fuel q vis ↔
        v ∈ vis ∨ ∃ d ∈ q, Relation.ReflTransGen (depEdge g) d v
  | 0, q, vis, hm, _ => absurd hm (Nat.not_lt_zero _)
  | fuel + 1, [], vis, _, _ => by
      intro v
      simp [bfsClosure]
  | fuel + 1, d :: q, vis, hm, hinv => by
      by_cases hd : d ∈ vis
      · have he : bfsClosure g (fuel + 1) (d :: q) vis = bfsClosure g fuel q vis := by
          simp only [bfsClosure]
          rw [if_pos hd]
        have hinv' : ∀ v ∈ vis, ∀ e ∈ depsOf g v, e ∈ vis ∨ e ∈ q := by
          intro v hv e hev
          rcases hinv v hv e hev with h | h
          · exact Or.inl h
          · rcases List.mem_cons.mp h with rfl | h
            · exact Or.inl hd
            · exact Or.inr h
        have ih := bfs_spec hW fuel q vis
          (by
            simp only [List.length_cons] at hm
            omega)
          hinv'
        intro v
        rw [he, ih v]
        constructor
        · rintro (h | ⟨e, he1, he2⟩)
          · exact Or.inl h
          · exact Or.inr ⟨e, List.mem_cons_of_mem _ he1, he2⟩
        · rintro (h | ⟨e, he1, he2⟩)
          · exact Or.inl h
          · rcases List.mem_cons.mp he1 with rfl | he1'
            · rcases escape hinv' he2 hd with h | h
              · exact Or.inl h
              · exact Or.inr h
            · exact Or.inr ⟨e, he1', he2⟩
      · have he : bfsClosure g (fuel + 1) (d :: q) vis =
            bfsClosure g fuel (q ++ depsOf g d) (vis ++ [d]) := by
          simp only [bfsClosure]
          rw [if_neg hd]
        have hmono : ∀ x ∈ vis, x ∈ vis ++ [d] :=
          fun x hx => List.mem_append.mpr (Or.inl hx)
        have hm' : (q ++ depsOf g d).length +
            (((keysOf g).filter (fun u => u ∉ vis ++ [d])).map
              (fun v => (depsOf g v).length)).sum < fuel := by
          rw [filter_snoc_decomp]
          by_cases hdk : d ∈ keysOf g
          · have hdm : d ∈ (keysOf g).filter (fun u => u ∉ vis) :=
              List.mem_filter.mpr ⟨hdk, by simp [hd]⟩
            have hfnd : ((keysOf g).filter (fun u => u ∉ vis)).Nodup :=
              List.Nodup.sublist (List.filter_sublist _) hW.1
            have hsum : ((((keysOf g).filter (fun u => u ∉ vis)).filter
                  (fun u => u ≠ d)).map (fun v => (depsOf g v).length)).sum +
                (depsOf g d).length =
                (((keysOf g).filter (fun u => u ∉ vis)).map
                  (fun v => (depsOf g v).length)).sum :=
              sum_erase_mem (fun v => (depsOf g v).length) hfnd hdm
            simp only [List.length_append, List.length_cons] at hm ⊢
            omega
          · have hdeps : depsOf g d = [] := by
              unfold depsOf
              cases hl : g.lookup d with
              | none => rfl
              | some ds =>
                exact absurd (List.mem_map.mpr ⟨(d, ds), mem_of_lookup hl, rfl⟩) hdk
            have hfe : ((keysOf g).filter (fun u => u ∉ vis)).filter
                (fun u => u ≠ d) = (keysOf g).filter (fun u => u ∉ vis) := by
              refine List.filter_eq_self.mpr ?_
              intro u hu
              simp only [decide_eq_true_eq]
              rintro rfl
              exact hdk (List.mem_filter.mp hu).1
            rw [hfe, hdeps]
            simp only [List.length_append, List.length_cons, List.length_nil] at hm ⊢
            omega
        have hinv' : ∀ v ∈ vis ++ [d], ∀ e ∈ depsOf g v,
            e ∈ vis ++ [d] ∨ e ∈ q ++ depsOf g d := by
          intro v hv e hev
          rcases List.mem_append.mp hv with h | h
          · rcases hinv v h e hev with h' | h'
            · exact Or.inl (List.mem_append.mpr (Or.inl h'))
            · rcases List.mem_cons.mp h' with rfl | h''
              · exact Or.inl (List.mem_append.mpr (Or.inr (List.mem_singleton.mpr rfl)))
              · exact Or.inr (List.mem_append.mpr (Or.inl h''))
          · rcases List.mem_singleton.mp h with rfl
            exact Or.inr (List.mem_append.mpr (Or.inr hev))
        have ih := bfs_spec hW fuel (q ++ depsOf g d) (vis ++ [d]) hm' hinv'
        intro v
        rw [he, ih v]
        constructor
        · rintro (h | ⟨e, he1, he2⟩)
          · rcases List.mem_append.mp h with h' | h'
            · exact Or.inl h'
            · rcases List.mem_singleton.mp h' with rfl
              exact Or.inr ⟨v, List.mem_cons_self _ _, Relation.ReflTransGen.refl⟩
          · rcases List.mem_append.mp he1 with h' | h'
            · exact Or.inr ⟨e, List.mem_cons_of_mem _ h', he2⟩
            · exact Or.inr ⟨d, List.mem_cons_self _ _,
                Relation.ReflTransGen.head h' he2⟩
        · rintro (h | ⟨e, he1, he2⟩)
          · exact Or.inl (List.mem_append.mpr (Or.inl h))
          · rcases List.mem_cons.mp he1 with rfl | he1'
            · rcases Relation.ReflTransGen.cases_head he2 with rfl | ⟨c, hc1, hc2⟩
              · exact Or.inl (List.mem_append.mpr (Or.inr (List.mem_singleton.mpr rfl)))
              · exact Or.inr ⟨c, List.mem_append.mpr (Or.inr hc1), hc2⟩
            · exact Or.inr ⟨e, List.mem_append.mpr (Or.inl he1'), he2⟩

theorem edge_target_key {g : Graph} (hW : WFGraph g) {x y : String}
    (h : depEdge g x y) : y ∈ keysOf g := by
  have hx : x ∈ keysOf g := edge_source_key h
  exact hW.2 (x, depsOf g x) (mem_of_depsOf hx) y h

/-- Claim C7: on an acyclic graph accepted by `load_graph`, `get_subgraph`
fails with the key error when the node is absent, and otherwise returns
exactly the ids reachable from the node via dependency edges (excluding the
node itself), as a subsequence of the full topological order. -/
theorem c7_subgraph :
    ∀ (records : List (String × JValue)) (g : Graph) (node : String),
      loadGraph records = .ok g → ¬ HasCycle g →
      (node ∉ keysOf g → getSubgraph g node = .error (.keyError node)) ∧
      (node ∈ keysOf g →
        ∃ l full, getSubgraph g node = .ok l ∧ topologicalSort g = .ok full ∧
          List.Sublist l full ∧
          (∀ u, u ∈ l ↔ Relation.TransGen (depEdge g) node u) ∧
          node ∉ l) := by
  intro records g node hload hA
  have hW := loadGraph_wf hload
  constructor
  · intro habs
    unfold getSubgraph
    rw [if_neg habs]
  · intro hpres
    have hcy := detectCycles_nil_of_acyclic hA
    rcases sort_ok_of_acyclic hW hcy hA with ⟨full, hok, hout, hmem, _⟩
    have hchar := bfs_spec hW (bfsFuel g (depsOf g node)) (depsOf g node) []
      (by
        unfold bfsFuel
        have hfe : (keysOf g).filter (fun u => u ∉ ([] : List String)) = keysOf g := by
          refine List.filter_eq_self.mpr ?_
          intro u _
          simp
        rw [hfe, keys_deps_sum g hW.1]
        omega)
      (by
        intro v hv
        exact absurd hv (List.not_mem_nil _))
    have hvisited : ∀ v, v ∈ bfsClosure g (bfsFuel g (depsOf g node))
        (depsOf g node) [] ↔ Relation.TransGen (depEdge g) node v := by
      intro v
      rw [hchar v]
      constructor
      · rintro (h | ⟨d, hd1, hd2⟩)
        · exact absurd h (List.not_mem_nil _)
        · exact Relation.TransGen.head' hd1 hd2
      · intro h
        rcases (Relation.TransGen.head'_iff).mp h with ⟨c, hc1, hc2⟩
        exact Or.inr ⟨c, hc1, hc2⟩
    refine ⟨full.filter (fun v => v ∈ bfsClosure g (bfsFuel g (depsOf g node))
      (depsOf g node) []), full, ?_, hok, List.filter_sublist _, ?_, ?_⟩
    · unfold getSubgraph
      rw [if_pos hpres, hok]
    · intro u
      rw [List.mem_filter]
      constructor
      · rintro ⟨_, hu2⟩
        exact (hvisited u).mp (by simpa using hu2)
      · intro h
        refine ⟨?_, by simpa using (hvisited u).mpr h⟩
        refine (hmem u).mpr ?_
        rcases (Relation.TransGen.tail'_iff).mp h with ⟨c, _, hc2⟩
        exact edge_target_key hW hc2
    · intro hc
      rcases List.mem_filter.mp hc with ⟨_, h2⟩
      have := (hvisited node).mp (by simpa using h2)
      exact hA ⟨node, this⟩

/-- Witness for claim C7 at a concrete input. -/
theorem c7_subgraph_witness :
    ("Z" ∉ keysOf [("A", []), ("B", ["A"]), ("C", ["B"])] →
      getSubgraph [("A", []), ("B", ["A"]), ("C", ["B"])] "Z" =
        .error (.keyError "Z")) ∧
    ("Z" ∈ keysOf [("A", []), ("B", ["A"]), ("C", ["B"])] →
      ∃ l full, getSubgraph [("A", []), ("B", ["A"]), ("C", ["B"])] "Z" = .ok l ∧
        topologicalSort [("A", []), ("B", ["A"]), ("C", ["B"])] = .ok full ∧
        List.Sublist l full ∧
        (∀ u, u ∈ l ↔
          Relation.TransGen (depEdge [("A", []), ("B", ["A"]), ("C", ["B"])]) "Z" u) ∧
        "Z" ∉ l) :=
  c7_subgraph
    [("A", .jobj [("deps", .jlist [])]), ("B", .jobj [("deps", .jlist [.jstr "A"])]),
     ("C", .jobj [("deps", .jlist [.jstr "B"])])]
    [("A", []), ("B", ["A"]), ("C", ["B"])] "Z" rfl
    (detectCycles_complete
      (@loadGraph_wf
        [("A", .jobj [("deps", .jlist [])]),
         ("B", .jobj [("deps", .jlist [.jstr "A"])]),
         ("C", .jobj [("deps", .jlist [.jstr "B"])])]
        [("A", []), ("B", ["A"]), ("C", ["B"])] rfl)
      rfl)

/-- Witness for the amended claim C6 at a concrete input. -/
theorem c6_amended_witness :
    ∃ raw l1 ds l2,
      rawEntries (pyDict ce6) = .ok raw ∧
      raw = l1 ++ ("a", ds) :: l2 ∧
      [JValue.jstr "x"] =
        dedupBy jscalarEq [] (ds.filter (fun d => ! resolves (keysOf raw) d)) ∧
      [JValue.jstr "x"] ≠ ([] : List JValue) ∧
      ∀ p ∈ l1, p.2.filter (fun d => ! resolves (keysOf raw) d) = [] :=
  c6_amended ce6 "a" [.jstr "x"] rfl

theorem cpStep_eq (adj : String → List String) (n : String) (s : CpSt) :
    cpStep adj n s = (adj n).foldl (cpRelax n) s := rfl

theorem cpRelax_spec (n : String) (s : CpSt) (a : String) :
    cpRelax n s a =
      ⟨Function.update s.lp a (max (s.lp a) (s.lp n + 1)),
       Function.update s.pred a (if s.lp a < s.lp n + 1 then some n else s.pred a),
       Function.update s.ind a (s.ind a - 1),
       s.queue ++ (if s.ind a - 1 = 0 then [a] else [])⟩ := by
  dsimp only [cpRelax]
  by_cases h : s.lp a < s.lp n + 1
  · by_cases h2 : s.ind a - 1 = 0 <;>
      simp [gt_iff_lt, h, h2, Function.update_same,
        Nat.max_eq_right (Nat.le_of_lt h)]
  · by_cases h2 : s.ind a - 1 = 0 <;>
      simp [gt_iff_lt, h, h2, Function.update_same, Function.update_eq_self,
        Nat.max_eq_left (Nat.not_lt.mp h)]

theorem pyDict_go_eq_of_nodup :
    ∀ (l d : List (String × List String)),
      (keysOf d ++ keysOf l).Nodup →
      l.foldl (fun d p => pyDictIns d p.1 p.2) d = d ++ l
  | [], d, _ => by simp
  | p :: l, d, hnd => by
      obtain ⟨k, v⟩ := p
      have hk : k ∉ keysOf d := by
        intro hmem
        rcases List.nodup_append.mp hnd with ⟨_, _, hdis⟩
        exact hdis hmem (by simp [keysOf])
      have hins : pyDictIns d k v = d ++ [(k, v)] := by
        unfold pyDictIns
        rw [if_neg ?_]
        simp only [List.any_eq_true, decide_eq_true_eq, not_exists]
        intro q hq
        exact hk (List.mem_map.mpr ⟨q, hq.1, hq.2⟩)
      have hnd' : (keysOf (d ++ [(k, v)]) ++ keysOf l).Nodup := by
        have : keysOf (d ++ [(k, v)]) ++ keysOf l = keysOf d ++ k :: keysOf l := by
          simp [keysOf]
        rw [this]
        simpa [keysOf] using hnd
      calc ((k, v) :: l).foldl (fun d p => pyDictIns d p.1 p.2) d
            = l.foldl (fun d p => pyDictIns d p.1 p.2) (d ++ [(k, v)]) := by
              simp [hins]
        _ = (d ++ [(k, v)]) ++ l := pyDict_go_eq_of_nodup l (d ++ [(k, v)]) hnd'
        _ = d ++ (k, v) :: l := by simp

theorem cpKeys_eq (tasks : List Task)
    (hnd : (tasks.map Task.task_id).Nodup) :
    cpKeys tasks = tasks.map Task.task_id := by
  unfold cpKeys pyDict
  rw [pyDict_go_eq_of_nodup _ [] ?_]
  · simp [keysOf, List.map_map]
  · simpa [keysOf, List.map_map] using hnd

theorem keysOf_tgraph (tasks : List Task) :
    keysOf (tgraph tasks) = tasks.map Task.task_id := by
  simp [keysOf, tgraph, List.map_map]

theorem cpInner (tid : String) :
    ∀ (ds : List String) (f0 : String → List String) (g0 : String → Int),
      (∀ v, (ds.foldl
          (fun (p : (String → List String) × (String → Int)) dep =>
            (Function.update p.1 dep (p.1 dep ++ [tid]),
             Function.update p.2 tid (p.2 tid + 1)))
          (f0, g0)).1 v = f0 v ++ List.replicate (ds.count v) tid) ∧
      (∀ u, (ds.foldl
          (fun (p : (String → List String) × (String → Int)) dep =>
            (Function.update p.1 dep (p.1 dep ++ [tid]),
             Function.update p.2 tid (p.2 tid + 1)))
          (f0, g0)).2 u = g0 u + if u = tid then (ds.length : Int) else 0)
  | [], f0, g0 => by
      constructor
      · intro v
        simp
      · intro u
        by_cases hu : u = tid <;> simp [hu]
  | d :: ds, f0, g0 => by
      have ih := cpInner tid ds (Function.update f0 d (f0 d ++ [tid]))
        (Function.update g0 tid (g0 tid + 1))
      constructor
      · intro v
        rw [List.foldl_cons, ih.1 v]
        by_cases hv : v = d
        · subst hv
          rw [Function.update_same, List.count_cons]
          simp [List.replicate_add, List.replicate_succ]
        · rw [Function.update_apply, if_neg hv, List.count_cons]
          have : (d == v) = false := by
            simp only [beq_eq_false_iff_ne, ne_eq]
            exact fun h => hv h.symm
          simp [this]
      · intro u
        rw [List.foldl_cons, ih.2 u]
        by_cases hu : u = tid
        · subst hu
          rw [Function.update_same]
          simp only [if_pos rfl, List.length_cons]
          push_cast
          ring
        · rw [Function.update_apply, if_neg hu, if_neg hu, if_neg hu]

theorem cpBuild_go :
    ∀ (ts : List Task) (f0 : String → List String) (g0 : String → Int),
      (∀ v, (ts.foldl
          (fun st t =>
            t.dependencies.foldl
              (fun (p : (String → List String) × (String → Int)) dep =>
                (Function.update p.1 dep (p.1 dep ++ [t.task_id]),
                 Function.update p.2 t.task_id (p.2 t.task_id + 1)))
              st)
          (f0, g0)).1 v = f0 v ++ dependentsOf (tgraph ts) v) ∧
      (∀ u, (ts.foldl
          (fun st t =>
            t.dependencies.foldl
              (fun (p : (String → List String) × (String → Int)) dep =>
                (Function.update p.1 dep (p.1 dep ++ [t.task_id]),
                 Function.update p.2 t.task_id (p.2 t.task_id + 1)))
              st)
          (f0, g0)).2 u = g0 u +
        ((ts.filter (fun t => t.task_id = u)).map
          (fun t => (t.dependencies.length : Int))).sum)
  | [], f0, g0 => by
      constructor
      · intro v
        simp [dependentsOf, tgraph]
      · intro u
        simp
  | t :: ts, f0, g0 => by
      have hin := cpInner t.task_id t.dependencies f0 g0
      have hsurj : t.dependencies.foldl
          (fun (p : (String → List String) × (String → Int)) dep =>
            (Function.update p.1 dep (p.1 dep ++ [t.task_id]),
             Function.update p.2 t.task_id (p.2 t.task_id + 1)))
          (f0, g0) =
          ((t.dependencies.foldl
            (fun (p : (String → List String) × (String → Int)) dep =>
              (Function.update p.1 dep (p.1 dep ++ [t.task_id]),
               Function.update p.2 t.task_id (p.2 t.task_id + 1)))
            (f0, g0)).1,
           (t.dependencies.foldl
            (fun (p : (String → List String) × (String → Int)) dep =>
              (Function.update p.1 dep (p.1 dep ++ [t.task_id]),
               Function.update p.2 t.task_id (p.2 t.task_id + 1)))
            (f0, g0)).2) := rfl
      have ih := cpBuild_go ts
        (t.dependencies.foldl
          (fun (p : (String → List String) × (String → Int)) dep =>
            (Function.update p.1 dep (p.1 dep ++ [t.task_id]),
             Function.update p.2 t.task_id (p.2 t.task_id + 1)))
          (f0, g0)).1
        (t.dependencies.foldl
          (fun (p : (String → List String) × (String → Int)) dep =>
            (Function.update p.1 dep (p.1 dep ++ [t.task_id]),
             Function.update p.2 t.task_id (p.2 t.task_id + 1)))
          (f0, g0)).2
      constructor
      · intro v
        rw [List.foldl_cons, hsurj, ih.1 v, hin.1 v]
        have : dependentsOf (tgraph (t :: ts)) v =
            List.replicate (t.dependencies.count v) t.task_id ++
              dependentsOf (tgraph ts) v := by
          simp [dependentsOf, tgraph]
        rw [this, List.append_assoc]
      · intro u
        rw [List.foldl_cons, hsurj, ih.2 u, hin.2 u]
        by_cases hu : t.task_id = u
        · rw [List.filter_cons_of_pos (by simp [hu]), List.map_cons, List.sum_cons,
            if_pos hu.symm]
          ring
        · rw [List.filter_cons_of_neg (by simp [hu]),
            if_neg (fun h => hu h.symm)]
          ring

theorem cpBuild_fst (tasks : List Task) (v : String) :
    (cpBuild tasks).1 v = dependentsOf (tgraph tasks) v := by
  have := (cpBuild_go tasks (fun _ => []) (fun _ => 0)).1 v
  unfold cpBuild
  rw [this]
  simp

theorem filter_task_id_nil {ts : List Task} {u : String}
    (h : u ∉ ts.map Task.task_id) :
    ts.filter (fun t => t.task_id = u) = [] := by
  rw [List.filter_eq_nil_iff]
  intro t ht
  simp only [decide_eq_true_eq]
  intro he
  exact h (List.mem_map.mpr ⟨t, ht, he⟩)

theorem depsOf_tgraph_sum :
    ∀ (ts : List Task), (ts.map Task.task_id).Nodup → ∀ (u : String),
      ((ts.filter (fun t => t.task_id = u)).map
        (fun t => (t.dependencies.length : Int))).sum =
        ((depsOf (tgraph ts) u).length : Int)
  | [], _, u => by simp [depsOf, tgraph, List.lookup]
  | t :: ts, hnd, u => by
      rw [List.map_cons] at hnd
      rcases List.nodup_cons.mp hnd with ⟨ht, hnd2⟩
      by_cases hu : t.task_id = u
      · have hd : depsOf (tgraph (t :: ts)) u = t.dependencies := by
          simp [depsOf, tgraph, List.lookup, hu]
        have hfe : ts.filter (fun t => t.task_id = u) = [] :=
          filter_task_id_nil (hu ▸ ht)
        rw [List.filter_cons_of_pos (by simp [hu]), List.map_cons, List.sum_cons,
          hfe, hd]
        simp
      · have hd : depsOf (tgraph (t :: ts)) u = depsOf (tgraph ts) u := by
          have : (u == t.task_id) = false := by
            simp only [beq_eq_false_iff_ne, ne_eq]
            exact fun h => hu h.symm
          simp [depsOf, tgraph, List.lookup, this]
        rw [List.filter_cons_of_neg (by simp [hu]), hd,
          depsOf_tgraph_sum ts hnd2 u]

theorem cpBuild_snd (tasks : List Task)
    (hnd : (tasks.map Task.task_id).Nodup) (u : String) :
    (cpBuild tasks).2 u = ((depsOf (tgraph tasks) u).length : Int) := by
  have := (cpBuild_go tasks (fun _ => []) (fun _ => 0)).2 u
  unfold cpBuild
  rw [this, depsOf_tgraph_sum tasks hnd u]
  simp

theorem depsOf_tgraph_closed {tasks : List Task}
    (hclosed : ∀ t ∈ tasks, ∀ d ∈ t.dependencies, d ∈ tasks.map Task.task_id)
    (v : String) : ∀ d ∈ depsOf (tgraph tasks) v, d ∈ tasks.map Task.task_id := by
  intro d hd
  unfold depsOf at hd
  cases hl : (tgraph tasks).lookup v with
  | none => rw [hl] at hd; exact absurd hd (List.not_mem_nil _)
  | some ds =>
    rw [hl] at hd
    have hmem : (v, ds) ∈ tgraph tasks := mem_of_lookup hl
    rcases List.mem_map.mp hmem with ⟨t, ht, he⟩
    have hds : ds = t.dependencies := by
      injection he with h1 h2
      exact h2.symm
    exact hclosed t ht d (hds ▸ hd)

theorem cpFold_spec (n : String) :
    ∀ (L : List String) (s : CpSt), n ∉ L →
      (∀ v, ((L.count v : Int)) ≤ s.ind v) →
      (∀ v, v ∉ L → (L.foldl (cpRelax n) s).lp v = s.lp v ∧
        (L.foldl (cpRelax n) s).pred v = s.pred v) ∧
      (∀ v ∈ L, (L.foldl (cpRelax n) s).lp v = max (s.lp v) (s.lp n + 1) ∧
        (L.foldl (cpRelax n) s).pred v =
          if s.lp v < s.lp n + 1 then some n else s.pred v) ∧
      (∀ v, (L.foldl (cpRelax n) s).ind v = s.ind v - (L.count v : Int)) ∧
      (∃ Q, (L.foldl (cpRelax n) s).queue = s.queue ++ Q ∧ Q.Nodup ∧
        (∀ v, v ∈ Q ↔ v ∈ L ∧ (L.foldl (cpRelax n) s).ind v = 0))
  | [], s, _, _ => by
      refine ⟨fun v _ => ⟨rfl, rfl⟩, fun v hv => absurd hv (List.not_mem_nil _),
        fun v => by simp, [], by simp, List.nodup_nil, fun v => by simp⟩
  | a :: L, s, hn, hge => by
      have hna : n ≠ a := by
        rintro rfl
        exact hn (List.mem_cons_self _ _)
      have hnL : n ∉ L := fun h => hn (List.mem_cons_of_mem _ h)
      have hlp1 : (cpRelax n s a).lp =
          Function.update s.lp a (max (s.lp a) (s.lp n + 1)) := by
        rw [cpRelax_spec]
      have hpred1 : (cpRelax n s a).pred =
          Function.update s.pred a
            (if s.lp a < s.lp n + 1 then some n else s.pred a) := by
        rw [cpRelax_spec]
      have hind1 : (cpRelax n s a).ind =
          Function.update s.ind a (s.ind a - 1) := by
        rw [cpRelax_spec]
      have hq1 : (cpRelax n s a).queue =
          s.queue ++ (if s.ind a - 1 = 0 then [a] else []) := by
        rw [cpRelax_spec]
      have hlp1n : (cpRelax n s a).lp n = s.lp n := by
        rw [hlp1, Function.update_apply, if_neg hna]
      have hge' : ∀ v, ((L.count v : Int)) ≤ (cpRelax n s a).ind v := by
        intro v
        rw [hind1, Function.update_apply]
        have hgv := hge v
        rw [List.count_cons] at hgv
        by_cases hv : v = a
        · rw [if_pos hv]
          subst hv
          simp only [beq_self_eq_true, if_true] at hgv
          push_cast at hgv ⊢
          omega
        · rw [if_neg hv]
          have : (a == v) = false := by
            simp only [beq_eq_false_iff_ne, ne_eq]
            exact fun h => hv h.symm
          rw [this] at hgv
          simpa using hgv
      obtain ⟨ih1, ih2, ih3, Q', hQ'eq, hQ'nd, hQ'iff⟩ :=
        cpFold_spec n L (cpRelax n s a) hnL hge'
      have haL : ∀ v, a ∉ L → (v ∈ L → v ≠ a) := fun v h hv he => h (he ▸ hv)
      simp only [List.foldl_cons]
      refine ⟨?_, ?_, ?_, ?_⟩
      · intro v hv
        have hva : v ≠ a := fun he => hv (he ▸ List.mem_cons_self _ _)
        have hvL : v ∉ L := fun h => hv (List.mem_cons_of_mem _ h)
        rcases ih1 v hvL with ⟨h1, h2⟩
        refine ⟨?_, ?_⟩
        · rw [h1, hlp1, Function.update_apply, if_neg hva]
        · rw [h2, hpred1, Function.update_apply, if_neg hva]
      · intro v hv
        by_cases hva : v = a
        · subst hva
          by_cases hvL : v ∈ L
          · rcases ih2 v hvL with ⟨h1, h2⟩
            constructor
            · rw [h1, hlp1n, hlp1, Function.update_same, Nat.max_assoc,
                Nat.max_self]
            · rw [h2, hlp1n, hlp1, Function.update_same,
                if_neg (Nat.not_lt.mpr (Nat.le_max_right _ _)),
                hpred1, Function.update_same]
          · rcases ih1 v hvL with ⟨h1, h2⟩
            constructor
            · rw [h1, hlp1, Function.update_same]
            · rw [h2, hpred1, Function.update_same]
        · have hvL : v ∈ L := by
            rcases List.mem_cons.mp hv with he | h
            · exact absurd he hva
            · exact h
          rcases ih2 v hvL with ⟨h1, h2⟩
          constructor
          · rw [h1, hlp1n, hlp1, Function.update_apply, if_neg hva]
          · rw [h2, hlp1n, hlp1, Function.update_apply, if_neg hva,
              hpred1, Function.update_apply, if_neg hva]
      · intro v
        rw [ih3 v, hind1, Function.update_apply, List.count_cons]
        by_cases hv : v = a
        · subst hv
          simp only [beq_self_eq_true, if_true, if_pos rfl]
          push_cast
          ring
        · have : (a == v) = false := by
            simp only [beq_eq_false_iff_ne, ne_eq]
            exact fun h => hv h.symm
          rw [if_neg hv, this]
          push_cast
          ring
      · refine ⟨(if s.ind a - 1 = 0 then [a] else []) ++ Q', ?_, ?_, ?_⟩
        · rw [hQ'eq, hq1, List.append_assoc]
        · by_cases hz : s.ind a - 1 = 0
          · rw [if_pos hz]
            have haL2 : a ∉ L := by
              have := hge' a
              rw [hind1, Function.update_same, hz] at this
              have hc0 : L.count a = 0 := by omega
              exact List.count_eq_zero.mp hc0
            have haQ' : a ∉ Q' := fun h => haL2 ((hQ'iff a).mp h).1
            simpa using List.nodup_cons.mpr ⟨haQ', hQ'nd⟩
          · rw [if_neg hz]
            simpa using hQ'nd
        · intro v
          by_cases hz : s.ind a - 1 = 0
          · rw [if_pos hz]
            have haL2 : a ∉ L := by
              have := hge' a
              rw [hind1, Function.update_same, hz] at this
              have hc0 : L.count a = 0 := by omega
              exact List.count_eq_zero.mp hc0
            constructor
            · intro hvm
              rcases List.mem_append.mp hvm with h | h
              · rcases List.mem_singleton.mp h with rfl
                refine ⟨List.mem_cons_self _ _, ?_⟩
                have hc : ((L.count v : Int)) = 0 := by
                  exact_mod_cast List.count_eq_zero.mpr haL2
                rw [ih3 v, hind1, Function.update_same, hz, hc]
                ring
              · rcases (hQ'iff v).mp h with ⟨h1, h2⟩
                exact ⟨List.mem_cons_of_mem _ h1, h2⟩
            · rintro ⟨hv1, hv2⟩
              rcases List.mem_cons.mp hv1 with rfl | hvL
              · exact List.mem_append.mpr (Or.inl (List.mem_singleton.mpr rfl))
              · exact List.mem_append.mpr (Or.inr ((hQ'iff v).mpr ⟨hvL, hv2⟩))
          · rw [if_neg hz]
            simp only [List.nil_append]
            rw [hQ'iff v]
            constructor
            · rintro ⟨h1, h2⟩
              exact ⟨List.mem_cons_of_mem _ h1, h2⟩
            · rintro ⟨hv1, hv2⟩
              rcases List.mem_cons.mp hv1 with rfl | hvL
              · by_cases hvL2 : v ∈ L
                · exact ⟨hvL2, hv2⟩
                · exfalso
                  have hc : ((L.count v : Int)) = 0 := by
                    exact_mod_cast List.count_eq_zero.mpr hvL2
                  rw [ih3 v, hind1, Function.update_same, hc] at hv2
                  omega
              · exact ⟨hvL, hv2⟩

theorem cp_step_inv (tasks : List Task)
    (hnd : (tasks.map Task.task_id).Nodup)
    (hA : ¬ HasCycle (tgraph tasks))
    (P rest : List String) (n : String) (lp : String → Nat)
    (pred : String → Option String) (ind : String → Int)
    (hInv : CInv tasks P ⟨lp, pred, ind, n :: rest⟩) :
    CInv tasks (P ++ [n]) (cpStep (cpBuild tasks).1 n ⟨lp, pred, ind, rest⟩) := by
  obtain ⟨hnodup, hmemQ, hind, hiff, hpn, hps, hrel, hlpb⟩ := hInv
  dsimp only at hnodup hmemQ hind hiff hpn hps hrel hlpb
  have hkeys : keysOf (tgraph tasks) = tasks.map Task.task_id := keysOf_tgraph tasks
  have hck : cpKeys tasks = tasks.map Task.task_id := cpKeys_eq tasks hnd
  have hkk : keysOf (tgraph tasks) = cpKeys tasks := by rw [hkeys, hck]
  have hndk : (keysOf (tgraph tasks)).Nodup := by rw [hkeys]; exact hnd
  have hadj : (cpBuild tasks).1 n = dependentsOf (tgraph tasks) n := cpBuild_fst tasks n
  have hcnt := count_dependentsOf hndk n
  have hmem_adj : ∀ v, v ∈ (cpBuild tasks).1 n ↔
      v ∈ cpKeys tasks ∧ n ∈ depsOf (tgraph tasks) v := by
    intro v
    rw [hadj]
    constructor
    · intro hv
      have hk := mem_dependentsOf_keys hv
      have hpos : 0 < (dependentsOf (tgraph tasks) n).count v :=
        List.count_pos_iff.mpr hv
      have he := hcnt v
      rw [if_pos hk] at he
      have hpos2 : 0 < (depsOf (tgraph tasks) v).count n := by
        have := Nat.cast_inj.mp he
        omega
      exact ⟨by rw [← hkk]; exact hk, List.count_pos_iff.mp hpos2⟩
    · rintro ⟨hvk, hvd⟩
      have hk : v ∈ keysOf (tgraph tasks) := by rw [hkk]; exact hvk
      have hpos : 0 < (depsOf (tgraph tasks) v).count n :=
        List.count_pos_iff.mpr hvd
      have he := hcnt v
      rw [if_pos hk] at he
      have hpos2 : 0 < (dependentsOf (tgraph tasks) n).count v := by
        have := Nat.cast_inj.mp he
        omega
      exact List.count_pos_iff.mp hpos2
  rcases List.nodup_append.mp hnodup with ⟨hPnd, hnrnd, hdisj⟩
  have hnP : n ∉ P := fun h => hdisj h (List.mem_cons_self _ _)
  have hnin : n ∈ cpKeys tasks :=
    hmemQ n (List.mem_append.mpr (Or.inr (List.mem_cons_self _ _)))
  have htna : n ∉ (cpBuild tasks).1 n := by
    intro h
    rcases (hmem_adj n).mp h with ⟨_, hd⟩
    exact hA ⟨n, Relation.TransGen.single hd⟩
  have hdnil : ∀ v, v ∉ keysOf (tgraph tasks) → depsOf (tgraph tasks) v = [] := by
    intro v hk
    unfold depsOf
    cases hl : (tgraph tasks).lookup v with
    | none => rfl
    | some ds =>
      exact absurd (List.mem_map.mpr ⟨(v, ds), mem_of_lookup hl, rfl⟩) hk
  have hge : ∀ v, ((((cpBuild tasks).1 n).count v : Int)) ≤
      (⟨lp, pred, ind, rest⟩ : CpSt).ind v := by
    intro v
    dsimp only
    rw [hadj, hcnt v]
    by_cases hk : v ∈ keysOf (tgraph tasks)
    · rw [if_pos hk, hind v]
      have h1 : (depsOf (tgraph tasks) v).count n =
          ((depsOf (tgraph tasks) v).filter (fun d => d ∉ P)).count n :=
        (count_filter_not_mem hnP).symm
      rw [h1]
      exact_mod_cast List.count_le_length _ _
    · rw [if_neg hk, hind v]
      exact Int.natCast_nonneg _
  obtain ⟨h1, h2, h3, Q, hQeq, hQnd, hQiff⟩ :=
    cpFold_spec n ((cpBuild tasks).1 n) ⟨lp, pred, ind, rest⟩ htna hge
  rw [cpStep_eq]
  set F := ((cpBuild tasks).1 n).foldl (cpRelax n) (⟨lp, pred, ind, rest⟩ : CpSt)
    with hFdef
  dsimp only at h1 h2 h3 hQeq hQiff
  have htno : ∀ v ∈ (cpBuild tasks).1 n, v ∉ P ++ n :: rest := by
    intro v hv hvm
    rcases (hmem_adj v).mp hv with ⟨hvk, hnd2⟩
    exact hnP ((hiff v hvk).mp hvm n hnd2)
  have hFn : F.lp n = lp n := (h1 n htna).1
  have hkeep : ∀ v, v ∈ P ++ n :: rest → F.lp v = lp v ∧ F.pred v = pred v :=
    fun v hv => h1 v (fun h => htno v h hv)
  have hmono : ∀ v, lp v ≤ F.lp v := by
    intro v
    by_cases hv : v ∈ (cpBuild tasks).1 n
    · rw [(h2 v hv).1]
      exact Nat.le_max_left _ _
    · rw [(h1 v hv).1]
  have hind' : ∀ v, F.ind v =
      (((depsOf (tgraph tasks) v).filter (fun d => d ∉ P ++ [n])).length : Int) := by
    intro v
    rw [h3 v]
    by_cases hk : v ∈ keysOf (tgraph tasks)
    · have hc : ((((cpBuild tasks).1 n).count v : Int)) =
          (((depsOf (tgraph tasks) v).count n : Int)) := by
        rw [hadj, hcnt v, if_pos hk]
      rw [hc, hind v, length_filter_snoc _ _ _ hnP]
    · have hdv := hdnil v hk
      have hc : ((((cpBuild tasks).1 n).count v : Int)) = 0 := by
        rw [hadj, hcnt v, if_neg hk]
      rw [hc, hind v, hdv]
      simp
  refine ⟨?_, ?_, hind', ?_, ?_, ?_, ?_, ?_⟩
  · rw [hQeq]
    have hassoc : (P ++ [n]) ++ (rest ++ Q) = (P ++ n :: rest) ++ Q := by simp
    rw [hassoc]
    refine List.nodup_append.mpr ⟨hnodup, hQnd, ?_⟩
    intro a ha haQ
    exact htno a ((hQiff a).mp haQ).1 ha
  · intro v hv
    rw [hQeq] at hv
    rcases List.mem_append.mp hv with hv | hv
    · rcases List.mem_append.mp hv with hv | hv
      · exact hmemQ v (List.mem_append.mpr (Or.inl hv))
      · rcases List.mem_singleton.mp hv with rfl
        exact hnin
    · rcases List.mem_append.mp hv with hv | hv
      · exact hmemQ v
          (List.mem_append.mpr (Or.inr (List.mem_cons_of_mem _ hv)))
      · exact ((hmem_adj v).mp ((hQiff v).mp hv).1).1
  · intro v hvk
    rw [hQeq]
    constructor
    · intro hv
      have hsplit : v ∈ P ++ n :: rest ∨ v ∈ Q := by
        rcases List.mem_append.mp hv with hv | hv
        · rcases List.mem_append.mp hv with hv | hv
          · exact Or.inl (List.mem_append.mpr (Or.inl hv))
          · rcases List.mem_singleton.mp hv with rfl
            exact Or.inl (List.mem_append.mpr (Or.inr (List.mem_cons_self _ _)))
        · rcases List.mem_append.mp hv with hv | hv
          · exact Or.inl
              (List.mem_append.mpr (Or.inr (List.mem_cons_of_mem _ hv)))
          · exact Or.inr hv
      rcases hsplit with hv2 | hv2
      · intro d hd
        exact List.mem_append.mpr (Or.inl ((hiff v hvk).mp hv2 d hd))
      · have hz := ((hQiff v).mp hv2).2
        rw [hind' v] at hz
        have hlen : ((depsOf (tgraph tasks) v).filter
            (fun d => d ∉ P ++ [n])).length = 0 := by exact_mod_cast hz
        have hfe := List.length_eq_zero.mp hlen
        intro d hd
        by_contra hdm
        have : d ∈ (depsOf (tgraph tasks) v).filter (fun d => d ∉ P ++ [n]) :=
          List.mem_filter.mpr ⟨hd, by simpa using hdm⟩
        rw [hfe] at this
        exact List.not_mem_nil _ this
    · intro hd
      by_cases hall : ∀ d ∈ depsOf (tgraph tasks) v, d ∈ P
      · have hv2 := (hiff v hvk).mpr hall
        rcases List.mem_append.mp hv2 with hv2 | hv2
        · exact List.mem_append.mpr
            (Or.inl (List.mem_append.mpr (Or.inl hv2)))
        · rcases List.mem_cons.mp hv2 with rfl | hv2
          · exact List.mem_append.mpr
              (Or.inl (List.mem_append.mpr (Or.inr (List.mem_singleton.mpr rfl))))
          · exact List.mem_append.mpr (Or.inr (List.mem_append.mpr (Or.inl hv2)))
      · push_neg at hall
        rcases hall with ⟨d, hdm, hdP⟩
        have hdn : d = n := by
          rcases List.mem_append.mp (hd d hdm) with h | h
          · exact absurd h hdP
          · exact List.mem_singleton.mp h
        have hvadj : v ∈ (cpBuild tasks).1 n :=
          (hmem_adj v).mpr ⟨hvk, hdn ▸ hdm⟩
        have hz : F.ind v = 0 := by
          rw [hind' v, filter_not_mem_eq_nil hd]
          rfl
        exact List.mem_append.mpr
          (Or.inr (List.mem_append.mpr (Or.inr ((hQiff v).mpr ⟨hvadj, hz⟩))))
  · intro v h
    by_cases hv : v ∈ (cpBuild tasks).1 n
    · rcases h2 v hv with ⟨hl, hp⟩
      rw [hp] at h
      by_cases hc : lp v < lp n + 1
      · rw [if_pos hc] at h
        exact absurd h (Option.some_ne_none _)
      · rw [if_neg hc] at h
        have := hpn v h
        omega
    · rcases h1 v hv with ⟨hl, hp⟩
      rw [hp] at h
      rw [hl]
      exact hpn v h
  · intro v u h
    by_cases hv : v ∈ (cpBuild tasks).1 n
    · rcases h2 v hv with ⟨hl, hp⟩
      rcases (hmem_adj v).mp hv with ⟨hvk, hnv⟩
      rw [hp] at h
      by_cases hc : lp v < lp n + 1
      · rw [if_pos hc] at h
        injection h with h
        subst h
        refine ⟨hnv, List.mem_append.mpr (Or.inr (List.mem_singleton.mpr rfl)),
          hvk, ?_⟩
        rw [hl, hFn, Nat.max_eq_right (Nat.le_of_lt hc)]
      · rw [if_neg hc] at h
        rcases hps v u h with ⟨hud, huP, hvk', hlpv⟩
        refine ⟨hud, List.mem_append.mpr (Or.inl huP), hvk', ?_⟩
        have hFu : F.lp u = lp u :=
          (hkeep u (List.mem_append.mpr (Or.inl huP))).1
        rw [hl, hFu, Nat.max_eq_left (Nat.not_lt.mp hc), hlpv]
    · rcases h1 v hv with ⟨hl, hp⟩
      rw [hp] at h
      rcases hps v u h with ⟨hud, huP, hvk', hlpv⟩
      have hFu : F.lp u = lp u :=
        (hkeep u (List.mem_append.mpr (Or.inl huP))).1
      exact ⟨hud, List.mem_append.mpr (Or.inl huP), hvk', by rw [hl, hFu, hlpv]⟩
  · intro u hu v hdv
    rcases List.mem_append.mp hu with huP | hun
    · have hFu : F.lp u = lp u :=
        (hkeep u (List.mem_append.mpr (Or.inl huP))).1
      rw [hFu]
      exact Nat.le_trans (hrel u huP v hdv) (hmono v)
    · rcases List.mem_singleton.mp hun with rfl
      have hvk : v ∈ keysOf (tgraph tasks) := edge_source_key hdv
      have hvadj : v ∈ (cpBuild tasks).1 u :=
        (hmem_adj v).mpr ⟨by rw [← hkk]; exact hvk, hdv⟩
      rw [(h2 v hvadj).1, hFn]
      exact Nat.le_max_right _ _
  · intro v
    rw [List.length_append, List.length_singleton]
    by_cases hv : v ∈ (cpBuild tasks).1 n
    · rw [(h2 v hv).1]
      have h1b := hlpb v
      have h2b := hlpb n
      exact Nat.max_le.mpr ⟨by omega, by omega⟩
    · rw [(h1 v hv).1]
      have := hlpb v
      omega

theorem cpLoop_inv (tasks : List Task)
    (hnd : (tasks.map Task.task_id).Nodup)
    (hA : ¬ HasCycle (tgraph tasks)) :
    ∀ (fuel : Nat) (s : CpSt) (P : List String), CInv tasks P s →
      (cpKeys tasks).length < fuel + P.length →
      CInv tasks (cpLoop (cpBuild tasks).1 fuel s P).2
        (cpLoop (cpBuild tasks).1 fuel s P).1 ∧
      (cpLoop (cpBuild tasks).1 fuel s P).1.queue = []
  | 0, s, P, hInv, hb => by
      exfalso
      have hPnd : P.Nodup := (List.nodup_append.mp hInv.1).1
      have hPsub : ∀ v ∈ P, v ∈ cpKeys tasks :=
        fun v hv => hInv.2.1 v (List.mem_append.mpr (Or.inl hv))
      have := nodup_subset_length hPnd hPsub
      omega
  | fuel + 1, s, P, hInv, hb => by
      obtain ⟨slp, spred, sind, sq⟩ := s
      cases sq with
      | nil =>
        have he : cpLoop (cpBuild tasks).1 (fuel + 1)
            (⟨slp, spred, sind, []⟩ : CpSt) P = (⟨slp, spred, sind, []⟩, P) := rfl
        rw [he]
        exact ⟨hInv, rfl⟩
      | cons n rest =>
        have he : cpLoop (cpBuild tasks).1 (fuel + 1)
            (⟨slp, spred, sind, n :: rest⟩ : CpSt) P =
            cpLoop (cpBuild tasks).1 fuel
              (cpStep (cpBuild tasks).1 n ⟨slp, spred, sind, rest⟩) (P ++ [n]) := rfl
        rw [he]
        have hstep := cp_step_inv tasks hnd hA P rest n slp spred sind hInv
        refine cpLoop_inv tasks hnd hA fuel _ (P ++ [n]) hstep ?_
        rw [List.length_append, List.length_singleton]
        omega

theorem cp_initial_inv (tasks : List Task)
    (hnd : (tasks.map Task.task_id).Nodup) :
    CInv tasks []
      ⟨fun _ => 0, fun _ => none, (cpBuild tasks).2,
       (cpKeys tasks).filter (fun v => (cpBuild tasks).2 v = 0)⟩ := by
  have hkck : ∀ v, (cpBuild tasks).2 v = ((depsOf (tgraph tasks) v).length : Int) :=
    cpBuild_snd tasks hnd
  have hcknd : (cpKeys tasks).Nodup := by
    rw [cpKeys_eq tasks hnd]
    exact hnd
  refine ⟨?_, ?_, ?_, ?_, ?_, ?_, ?_, ?_⟩
  · simpa using List.Nodup.filter _ hcknd
  · intro v hv
    simp only [List.nil_append] at hv
    exact (List.mem_filter.mp hv).1
  · intro v
    dsimp only
    rw [hkck v]
    have hfe : (depsOf (tgraph tasks) v).filter
        (fun d => d ∉ ([] : List String)) = depsOf (tgraph tasks) v := by
      refine List.filter_eq_self.mpr ?_
      intro a _
      simp
    rw [hfe]
  · intro v hvk
    dsimp only
    simp only [List.nil_append]
    constructor
    · intro hv
      have hz : (cpBuild tasks).2 v = 0 := by
        simpa using (List.mem_filter.mp hv).2
      rw [hkck v] at hz
      have hlen : (depsOf (tgraph tasks) v).length = 0 := by exact_mod_cast hz
      have hnil := List.length_eq_zero.mp hlen
      intro d hd
      rw [hnil] at hd
      exact absurd hd (List.not_mem_nil _)
    · intro hall
      refine List.mem_filter.mpr ⟨hvk, ?_⟩
      have hnil : depsOf (tgraph tasks) v = [] :=
        List.eq_nil_iff_forall_not_mem.mpr
          (fun a ha => List.not_mem_nil a (hall a ha))
      simp [hkck v, hnil]
  · intro v _
    rfl
  · intro v u h
    simp at h
  · intro u hu
    exact absurd hu (List.not_mem_nil _)
  · intro v
    simp

theorem cp_complete (tasks : List Task)
    (hnd : (tasks.map Task.task_id).Nodup)
    (hclosed : ∀ t ∈ tasks, ∀ d ∈ t.dependencies, d ∈ tasks.map Task.task_id)
    (hA : ¬ HasCycle (tgraph tasks))
    {P : List String} {s : CpSt} (hInv : CInv tasks P s) (hq : s.queue = []) :
    ∀ v ∈ cpKeys tasks, v ∈ P := by
  by_contra hc
  push_neg at hc
  rcases hc with ⟨v0, hv0k, hv0P⟩
  have hne : (cpKeys tasks).filter (fun u => u ∉ P) ≠ [] := by
    intro h0
    have hm : v0 ∈ (cpKeys tasks).filter (fun u => u ∉ P) :=
      List.mem_filter.mpr ⟨hv0k, by simp [hv0P]⟩
    rw [h0] at hm
    exact List.not_mem_nil _ hm
  apply hA
  refine cycle_of_closed hne ?_
  intro v hv
  rcases List.mem_filter.mp hv with ⟨hvk, hvP⟩
  have hvP2 : v ∉ P := by simpa using hvP
  have hnall : ¬ (∀ d ∈ depsOf (tgraph tasks) v, d ∈ P) := by
    intro hall
    have hm := (hInv.2.2.2.1 v hvk).mpr hall
    rw [hq] at hm
    simp only [List.append_nil] at hm
    exact hvP2 hm
  push_neg at hnall
  rcases hnall with ⟨d, hdm, hdP⟩
  refine ⟨d, hdm, List.mem_filter.mpr ⟨?_, by simp [hdP]⟩⟩
  rw [cpKeys_eq tasks hnd]
  exact depsOf_tgraph_closed hclosed v d hdm

theorem tchain_le (tasks : List Task) (lp : String → Nat)
    (hedge : ∀ u v, u ∈ depsOf (tgraph tasks) v → lp u + 1 ≤ lp v) :
    ∀ c, TChain tasks c → ∀ v, c.getLast? = some v → c.length ≤ lp v + 1 := by
  intro c
  induction c using List.reverseRecOn with
  | nil =>
    intro h v hv
    simp at hv
  | append_singleton c' a ih =>
    intro hc v hv
    have hva : v = a := by
      have hcon : (c' ++ [a]).getLast? = some a := List.getLast?_concat c'
      rw [hcon] at hv
      exact (Option.some_inj.mp hv).symm
    subst hva
    cases hc' : c' with
    | nil => simp
    | cons b l =>
      subst hc'
      rcases hc with ⟨_, hmem, hch⟩
      rw [List.chain'_append] at hch
      rcases hch with ⟨hch1, _, hlink⟩
      have hne : (b :: l) ≠ ([] : List String) := by simp
      have hgl : (b :: l).getLast? = some ((b :: l).getLast hne) :=
        List.getLast?_eq_getLast _ hne
      have hu : (b :: l).getLast hne ∈ depsOf (tgraph tasks) v := by
        refine hlink _ ?_ v ?_
        · rw [hgl]; rfl
        · rfl
      have hchain' : TChain tasks (b :: l) :=
        ⟨by simp, fun x hx => hmem x (List.mem_append.mpr (Or.inl hx)), hch1⟩
      have hle1 := ih hchain' ((b :: l).getLast hne) hgl
      have hle2 := hedge _ v hu
      rw [List.length_append, List.length_singleton]
      omega

theorem cpWalk_spec (tasks : List Task) (s : CpSt)
    (hpn : ∀ v, s.pred v = none → s.lp v = 0)
    (hps : ∀ v u, s.pred v = some u → u ∈ depsOf (tgraph tasks) v ∧
      u ∈ cpKeys tasks ∧ s.lp v = s.lp u + 1) :
    ∀ (fuel : Nat) (v : String), v ∈ cpKeys tasks → s.lp v < fuel →
      ∃ w, (∀ acc, cpWalk s.pred fuel (some v) acc = acc ++ w) ∧
        w.head? = some v ∧ w.length = s.lp v + 1 ∧
        (∀ x ∈ w, x ∈ cpKeys tasks) ∧
        List.Chain' (fun x y => y ∈ depsOf (tgraph tasks) x) w
  | 0, v, _, hlt => absurd hlt (Nat.not_lt_zero _)
  | fuel + 1, v, hvk, hlt => by
      cases hp : s.pred v with
      | none =>
        refine ⟨[v], ?_, rfl, ?_, ?_, List.chain'_singleton _⟩
        · intro acc
          show cpWalk s.pred fuel (s.pred v) (acc ++ [v]) = acc ++ [v]
          rw [hp]
          cases fuel <;> rfl
        · rw [List.length_singleton, hpn v hp]
        · intro x hx
          rcases List.mem_singleton.mp hx with rfl
          exact hvk
      | some u =>
        rcases hps v u hp with ⟨hud, huk, hlp⟩
        have hlt' : s.lp u < fuel := by omega
        obtain ⟨w', hw'eq, hw'h, hw'len, hw'mem, hw'ch⟩ :=
          cpWalk_spec tasks s hpn hps fuel u huk hlt'
        refine ⟨v :: w', ?_, rfl, ?_, ?_, ?_⟩
        · intro acc
          show cpWalk s.pred fuel (s.pred v) (acc ++ [v]) = acc ++ v :: w'
          rw [hp, hw'eq (acc ++ [v]), List.append_assoc]
          rfl
        · rw [List.length_cons, hw'len, hlp]
        · intro x hx
          rcases List.mem_cons.mp hx with rfl | hx
          · exact hvk
          · exact hw'mem x hx
        · cases w' with
          | nil => simp at hw'h
          | cons b t =>
            have hb : b = u := by simpa using hw'h
            subst hb
            exact List.chain'_cons.mpr ⟨hud, hw'ch⟩

theorem argmax_go (lp : String → Nat) :
    ∀ (rest : List String) (b : String × Nat),
      ∃ r, (rest.map (fun v => (v, lp v))).foldl
          (fun best p => if p.2 > best.2 then p else best) b = r ∧
        b.2 ≤ r.2 ∧
        ((r = b ∧ ∀ w ∈ rest, lp w ≤ b.2) ∨
         (∃ pre post, rest = pre ++ r.1 :: post ∧ r.2 = lp r.1 ∧ b.2 < r.2 ∧
           (∀ w ∈ pre, lp w < r.2) ∧ (∀ w ∈ post, lp w ≤ r.2)))
  | [], b => ⟨b, rfl, Nat.le_refl _, Or.inl ⟨rfl, by simp⟩⟩
  | a :: rest, b => by
      by_cases h : b.2 < lp a
      · obtain ⟨r, hr, hbr, hcase⟩ := argmax_go lp rest (a, lp a)
        refine ⟨r, ?_, Nat.le_trans (Nat.le_of_lt h) hbr, Or.inr ?_⟩
        · simp only [List.map_cons, List.foldl_cons]
          rw [if_pos h]
          exact hr
        · rcases hcase with ⟨hrb, hall⟩ | ⟨pre, post, hsplit, hr2, hlt2, hpre, hpost⟩
          · refine ⟨[], rest, ?_, ?_, ?_, ?_, ?_⟩
            · rw [hrb]
              rfl
            · rw [hrb]
            · rw [hrb]
              exact h
            · intro w hw
              exact absurd hw (List.not_mem_nil _)
            · intro w hw
              have := hall w hw
              rw [hrb]
              simpa using this
          · refine ⟨a :: pre, post, ?_, hr2, Nat.lt_trans h hlt2, ?_, hpost⟩
            · rw [List.cons_append, ← hsplit]
            · intro w hw
              rcases List.mem_cons.mp hw with rfl | hw
              · exact hlt2
              · exact hpre w hw
      · obtain ⟨r, hr, hbr, hcase⟩ := argmax_go lp rest b
        refine ⟨r, ?_, hbr, ?_⟩
        · simp only [List.map_cons, List.foldl_cons]
          rw [if_neg h]
          exact hr
        · rcases hcase with ⟨hrb, hall⟩ | ⟨pre, post, hsplit, hr2, hlt2, hpre, hpost⟩
          · refine Or.inl ⟨hrb, ?_⟩
            intro w hw
            rcases List.mem_cons.mp hw with rfl | hw
            · exact Nat.not_lt.mp h
            · exact hall w hw
          · refine Or.inr ⟨a :: pre, post,
              by rw [List.cons_append, ← hsplit], hr2, hlt2, ?_, hpost⟩
            intro w hw
            rcases List.mem_cons.mp hw with rfl | hw
            · exact Nat.lt_of_le_of_lt (Nat.not_lt.mp h) hlt2
            · exact hpre w hw

theorem argmax_ids_spec (ids : List String) (lp : String → Nat) (hne : ids ≠ []) :
    ∃ pre post e, ids = pre ++ e :: post ∧
      argmaxFirst (ids.map (fun v => (v, lp v))) = some e ∧
      (∀ w ∈ pre, lp w < lp e) ∧ (∀ w ∈ ids, lp w ≤ lp e) := by
  cases ids with
  | nil => exact absurd rfl hne
  | cons k rest =>
    obtain ⟨r, hr, hbr, hcase⟩ := argmax_go lp rest (k, lp k)
    have hmf : argmaxFirst ((k :: rest).map (fun v => (v, lp v))) = some r.1 := by
      show some (((rest.map (fun v => (v, lp v))).foldl
        (fun best p => if p.2 > best.2 then p else best) (k, lp k)).1) = some r.1
      rw [hr]
    rcases hcase with ⟨hrb, hall⟩ | ⟨pre, post, hsplit, hr2, hlt2, hpre, hpost⟩
    · refine ⟨[], rest, k, by simp, by rw [hmf, hrb], ?_, ?_⟩
      · intro w hw
        exact absurd hw (List.not_mem_nil _)
      · intro w hw
        rcases List.mem_cons.mp hw with rfl | hw
        · exact Nat.le_refl _
        · simpa using hall w hw
    · have hre : r.2 = lp r.1 := hr2
      refine ⟨k :: pre, post, r.1, by rw [List.cons_append, ← hsplit], hmf, ?_, ?_⟩
      · intro w hw
        rcases List.mem_cons.mp hw with rfl | hw
        · rw [← hre]
          exact hlt2
        · rw [← hre]
          exact hpre w hw
      · intro w hw
        rcases List.mem_cons.mp hw with rfl | hw
        · rw [← hre]
          exact Nat.le_of_lt hlt2
        · rw [hsplit] at hw
          rcases List.mem_append.mp hw with hw | hw
          · rw [← hre]
            exact Nat.le_of_lt (hpre w hw)
          · rcases List.mem_cons.mp hw with rfl | hw
            · rw [← hre]
            · rw [← hre]
              exact hpost w hw

/-- Claim C5, amended: on a non-empty task set with distinct ids, dependencies
closed under the id set and an acyclic dependency graph,
`calculate_critical_path` returns a dependency chain of maximal length among
all dependency chains; its endpoint is the first id in task insertion order
(the iteration order of the `longest_path` dict) whose longest chain attains
the maximum — every id strictly earlier in that order only ends strictly
shorter chains.  (The spec's tie-break claim — first id in topological
processing order — is refuted by `c5_counterexample`.) -/
theorem c5_amended (tasks : List Task)
    (hne : tasks ≠ [])
    (hnd : (tasks.map Task.task_id).Nodup)
    (hclosed : ∀ t ∈ tasks, ∀ d ∈ t.dependencies, d ∈ tasks.map Task.task_id)
    (hA : ¬ HasCycle (tgraph tasks)) :
    ∃ p e pre post,
      calculateCriticalPath tasks = some p ∧
      TChain tasks p ∧
      p.getLast? = some e ∧
      cpKeys tasks = pre ++ e :: post ∧
      (∀ c, TChain tasks c → c.length ≤ p.length) ∧
      (∀ w ∈ pre, ∀ c, TChain tasks c → c.getLast? = some w →
        c.length < p.length) := by
  have hinit := cp_initial_inv tasks hnd
  have hbound : (cpKeys tasks).length <
      (tasks.length + 1) + ([] : List String).length := by
    rw [cpKeys_eq tasks hnd, List.length_map]
    simp
  have hloop := cpLoop_inv tasks hnd hA (tasks.length + 1) _ [] hinit hbound
  have hrun : cpRun tasks = cpLoop (cpBuild tasks).1 (tasks.length + 1)
      ⟨fun _ => 0, fun _ => none, (cpBuild tasks).2,
       (cpKeys tasks).filter (fun v => (cpBuild tasks).2 v = 0)⟩ [] := rfl
  rw [← hrun] at hloop
  obtain ⟨hInvF, hqF⟩ := hloop
  obtain ⟨hnodupF, hmemF, hindF, hiffF, hpnF, hpsF, hrelF, hlpbF⟩ := hInvF
  have hall : ∀ v ∈ cpKeys tasks, v ∈ (cpRun tasks).2 :=
    cp_complete tasks hnd hclosed hA
      ⟨hnodupF, hmemF, hindF, hiffF, hpnF, hpsF, hrelF, hlpbF⟩ hqF
  have hedge : ∀ u v, u ∈ depsOf (tgraph tasks) v →
      (cpRun tasks).1.lp u + 1 ≤ (cpRun tasks).1.lp v := by
    intro u v hd
    have hu : u ∈ cpKeys tasks := by
      rw [cpKeys_eq tasks hnd]
      exact depsOf_tgraph_closed hclosed v u hd
    exact hrelF u (hall u hu) v hd
  have hidsne : cpKeys tasks ≠ [] := by
    rw [cpKeys_eq tasks hnd]
    intro h
    exact hne (List.map_eq_nil_iff.mp h)
  obtain ⟨pre, post, e, hsplit, hmax, hpre, hle⟩ :=
    argmax_ids_spec (cpKeys tasks) (cpRun tasks).1.lp hidsne
  have hek : e ∈ cpKeys tasks := by
    rw [hsplit]
    exact List.mem_append.mpr (Or.inr (List.mem_cons_self _ _))
  have hps' : ∀ v u, (cpRun tasks).1.pred v = some u →
      u ∈ depsOf (tgraph tasks) v ∧ u ∈ cpKeys tasks ∧
      (cpRun tasks).1.lp v = (cpRun tasks).1.lp u + 1 := by
    intro v u h
    rcases hpsF v u h with ⟨h1, h2, _, h4⟩
    exact ⟨h1, hmemF u (List.mem_append.mpr (Or.inl h2)), h4⟩
  have hlpe : (cpRun tasks).1.lp e < tasks.length + 1 := by
    have h1 := hlpbF e
    have h2 : (cpRun tasks).2.length ≤ (cpKeys tasks).length :=
      nodup_subset_length ((List.nodup_append.mp hnodupF).1)
        (fun v hv => hmemF v (List.mem_append.mpr (Or.inl hv)))
    rw [cpKeys_eq tasks hnd, List.length_map] at h2
    omega
  obtain ⟨w, hweq, hwh, hwlen, hwmem, hwch⟩ :=
    cpWalk_spec tasks (cpRun tasks).1 hpnF hps' (tasks.length + 1) e hek hlpe
  have hcalc : calculateCriticalPath tasks = some w.reverse := by
    show (match argmaxFirst ((cpKeys tasks).map
        (fun v => (v, (cpRun tasks).1.lp v))) with
      | none => none
      | some critEnd => some ((cpWalk (cpRun tasks).1.pred (tasks.length + 1)
          (some critEnd) []).reverse)) = some w.reverse
    rw [hmax]
    show some ((cpWalk (cpRun tasks).1.pred (tasks.length + 1)
      (some e) []).reverse) = some w.reverse
    rw [hweq [], List.nil_append]
  have hwne : w ≠ [] := by
    cases w with
    | nil => simp at hwh
    | cons b t => simp
  have hTC : TChain tasks w.reverse := by
    refine ⟨by simpa using hwne, ?_, ?_⟩
    · intro x hx
      exact hwmem x (List.mem_reverse.mp hx)
    · rw [List.chain'_reverse]
      exact hwch
  have hlast : w.reverse.getLast? = some e := by
    rw [List.getLast?_reverse]
    exact hwh
  have hplen : w.reverse.length = (cpRun tasks).1.lp e + 1 := by
    rw [List.length_reverse, hwlen]
  refine ⟨w.reverse, e, pre, post, hcalc, hTC, hlast, hsplit, ?_, ?_⟩
  · intro c hc
    have hcge : c ≠ [] := hc.1
    have hglast : c.getLast? = some (c.getLast hcge) :=
      List.getLast?_eq_getLast _ hcge
    have hvm : c.getLast hcge ∈ cpKeys tasks := hc.2.1 _ (List.getLast_mem hcge)
    have h1 := tchain_le tasks (cpRun tasks).1.lp hedge c hc _ hglast
    have h2 := hle _ hvm
    rw [hplen]
    omega
  · intro x hx c hc hcl
    have h1 := tchain_le tasks (cpRun tasks).1.lp hedge c hc x hcl
    have h2 := hpre x hx
    rw [hplen]
    omega

/-- Witness for the amended claim C5 at a concrete input. -/
theorem c5_amended_witness :
    ([⟨"A", []⟩, ⟨"B", ["A"]⟩] : List Task) ≠ [] ∧
    ∃ p e pre post,
      calculateCriticalPath [⟨"A", []⟩, ⟨"B", ["A"]⟩] = some p ∧
      TChain [⟨"A", []⟩, ⟨"B", ["A"]⟩] p ∧
      p.getLast? = some e ∧
      cpKeys [⟨"A", []⟩, ⟨"B", ["A"]⟩] = pre ++ e :: post ∧
      (∀ c, TChain [⟨"A", []⟩, ⟨"B", ["A"]⟩] c → c.length ≤ p.length) ∧
      (∀ w ∈ pre, ∀ c, TChain [⟨"A", []⟩, ⟨"B", ["A"]⟩] c →
        c.getLast? = some w → c.length < p.length) :=
  ⟨List.cons_ne_nil _ _,
   c5_amended [⟨"A", []⟩, ⟨"B", ["A"]⟩] (List.cons_ne_nil _ _) (by decide)
     (by decide)
     (detectCycles_complete ⟨by decide, by decide⟩ rfl)⟩

end DepRes
